import Mathlib

/-!
The Urho3D `Localization` subsystem (Source/Urho3D/Resource/Localization.cpp).

A shallow embedding of the localization string table: the list of known
languages, the active language index and the two-level table
language -> (string id -> translated text), together with the JSON loaders.

* `unsigned` and `int` values are `Nat` and `Int`; the conversions between
  them that the C++ performs implicitly are the explicit `toUnsigned` and
  `toSigned` (both modulo 2^32).
* `HashMap<K, V>` is an association list in insertion order with `Find`,
  `operator[]` (which inserts a default value when the key is absent) and
  assignment through the returned reference.
* `StringHash` (Math/StringHash.h, not part of the excerpt) is a parameter
  `hash : String → K`; a statement that needs distinct strings to have distinct
  hashes assumes `Function.Injective hash`.
* The overloads `GetLanguage(int)` and `SetLanguage(const String&)` are
  `GetLanguageAt` and `SetLanguageByName`.
* Log output (`URHO3D_LOGWARNING`) is a side channel and is not modelled; the
  number of `E_CHANGELANGUAGE` events sent is the ghost field `sentEvents`.
-/

namespace Urho3D

/-! ## Machine integers -/

/-- Conversion of an `int` to `unsigned` (value modulo 2^32). -/
def toUnsigned (i : Int) : Nat := (i % 4294967296).toNat

/-- Conversion of an `unsigned` (or an iterator difference) to `int`
(two's complement reading of the value modulo 2^32). -/
def toSigned (n : Nat) : Int :=
  if n % 4294967296 < 2147483648 then ((n % 4294967296 : Nat) : Int)
  else ((n % 4294967296 : Nat) : Int) - 4294967296

/-- The values of the C++ type `int`. -/
def IsInt (i : Int) : Prop := -2147483648 ≤ i ∧ i < 2147483648

instance (i : Int) : Decidable (IsInt i) := by
  unfold IsInt; infer_instance

/-! ## JSON values -/

/-- Modelled from the spec: the JSON document value (`JSONValue` of
Resource/JSONValue.h, not part of the excerpt), "a tree supporting: is this an
object, is this a string, enumerate object entries as (key, value) pairs in
source order, get string contents". The payload of a number is never read by
the loaders. -/
inductive JSONValue where
  | null : JSONValue
  | bool (b : Bool) : JSONValue
  | number (n : Int) : JSONValue
  | string (s : String) : JSONValue
  | array (items : List JSONValue) : JSONValue
  | object (members : List (String × JSONValue)) : JSONValue

/-- Modelled from the spec: `JSONValue::IsObject`. -/
def JSONValue.IsObject : JSONValue → Bool
  | .object _ => true
  | _ => false

/-- Modelled from the spec: `JSONValue::IsString`. -/
def JSONValue.IsString : JSONValue → Bool
  | .string _ => true
  | _ => false

/-- Modelled from the spec: `JSONValue::GetString`, the string contents, and
the empty string for a value that is not a string. -/
def JSONValue.GetString : JSONValue → String
  | .string s => s
  | _ => ""

/-- Modelled from the spec: `JSONValue::Size`, the number of members of an
object or of items of an array, and 0 for every other value. -/
def JSONValue.Size : JSONValue → Nat
  | .object members => members.length
  | .array items => items.length
  | _ => 0

/-- Modelled from the spec: the range `Begin() .. End()` of a `JSONValue`, the
(key, value) pairs of an object in source order, and the empty range for a
value that is not an object. -/
def JSONValue.members : JSONValue → List (String × JSONValue)
  | .object ms => ms
  | _ => []

/-! ## Hash maps -/

/-- The container `HashMap<K, V>`: its (key, value) nodes in insertion order. -/
abbrev HashMap (K V : Type) := List (K × V)

/-- The lookup `HashMap::Find`: the value of the first node with the key. -/
def HashMap.Find {K V : Type} [DecidableEq K] : HashMap K V → K → Option V
  | [], _ => none
  | (k', v) :: rest, k => if k' = k then some v else HashMap.Find rest k

/-- The effect of `HashMap::operator[]` on the map: a node with the default
value is inserted at the tail when the key is absent. -/
def HashMap.subscript {K V : Type} [DecidableEq K] (m : HashMap K V) (k : K) (dflt : V) :
    HashMap K V :=
  match HashMap.Find m k with
  | some _ => m
  | none => m ++ [(k, dflt)]

/-- Assignment through the reference that `operator[]` returned: the value of
the first node with the key is replaced. -/
def HashMap.assign {K V : Type} [DecidableEq K] : HashMap K V → K → V → HashMap K V
  | [], _, _ => []
  | (k', v') :: rest, k, v =>
    if k' = k then (k', v) :: rest else (k', v') :: HashMap.assign rest k v

/-! ## The localization subsystem -/

/-- The member variables of `Localization`, and the number of
`E_CHANGELANGUAGE` events sent so far. -/
structure Localization (K : Type) where
  languages_ : List String
  languageIndex_ : Nat
  strings_ : HashMap K (HashMap K String)
  sentEvents : Nat
deriving DecidableEq

/-- The constructor `Localization::Localization`. -/
def Localization.initial (K : Type) : Localization K :=
  { languages_ := [], languageIndex_ := 0, strings_ := [], sentEvents := 0 }

section Operations

variable {K : Type} [DecidableEq K]

/-- Modelled from the spec: `LanguageCount()`, the number of known languages
(the inline `GetNumLanguages` of Localization.h, which is not part of the
excerpt), as an `int`. -/
def GetNumLanguages (s : Localization K) : Int := toSigned s.languages_.length

/-- The method `Localization::GetLanguageIndex`. -/
def GetLanguageIndex (s : Localization K) (language : String) : Int :=
  if language = "" then -1
  else if s.languages_ = [] then -1
  else
    let it := s.languages_.indexOf language
    if it ≠ s.languages_.length then toSigned it else -1

/-- The method `Localization::GetLanguage()`. -/
def GetLanguage (s : Localization K) : String :=
  if s.languageIndex_ ≥ s.languages_.length then ""
  else s.languages_.getD s.languageIndex_ ""

/-- The method `Localization::GetLanguage(int index)`; `none` is a read outside
the language list. -/
def GetLanguageAt (s : Localization K) (index : Int) : Option String :=
  if index ≥ toSigned s.languages_.length then some ""
  else s.languages_[toUnsigned index]?

/-- The method `Localization::Get`. -/
def Get (hash : String → K) (s : Localization K) (id : String) : String :=
  if id = "" then ""
  else if s.languageIndex_ ≥ s.languages_.length then id
  else
    match HashMap.Find s.strings_ (hash (s.languages_.getD s.languageIndex_ "")) with
    | some translations =>
      match HashMap.Find translations (hash id) with
      | some text => text
      | none => id
    | none => id

/-- The method `Localization::SetLanguage(int index)`. -/
def SetLanguage (s : Localization K) (index : Int) : Localization K :=
  if toUnsigned index ≥ s.languages_.length then s
  else if toUnsigned index ≠ s.languageIndex_ then
    { s with languageIndex_ := toUnsigned index, sentEvents := s.sentEvents + 1 }
  else s

/-- The method `Localization::SetLanguage(const String& language)`. The position
`it - languages_.Begin()` is below `languages_.Size()`, itself an `unsigned`, so
that storing it in `unsigned index` keeps its value. -/
def SetLanguageByName (s : Localization K) (language : String) : Localization K :=
  let it := s.languages_.indexOf language
  if it = s.languages_.length then s
  else if it ≠ s.languageIndex_ then
    { s with languageIndex_ := it, sentEvents := s.sentEvents + 1 }
  else s

/-- The method `Localization::Reset`. -/
def Reset (s : Localization K) : Localization K :=
  { s with languages_ := [], languageIndex_ := 0, strings_ := [] }

/-- The statements `String& translation = strings_[StringHash(lang)][StringHash(id)];
translation = string;` of `LoadMultipleLanguageJSON`. -/
def storeTranslation (hash : String → K) (strings : HashMap K (HashMap K String))
    (lang id string : String) : HashMap K (HashMap K String) :=
  let strings1 := HashMap.subscript strings (hash lang) []
  let translations := (HashMap.Find strings1 (hash lang)).getD []
  let translations1 := HashMap.subscript translations (hash id) ""
  HashMap.assign strings1 (hash lang) (HashMap.assign translations1 (hash id) string)

/-- The body of the inner loop of `LoadMultipleLanguageJSON`, for the string
id `id` and the pair `j` of the object stored under it. -/
def LoadMultipleLanguageJSON.pair (hash : String → K) (id : String) (s : Localization K)
    (j : String × JSONValue) : Localization K :=
  if j.1 = "" then s
  else if j.2.GetString = "" then s
  else
    { s with
      strings_ := storeTranslation hash s.strings_ j.1 id j.2.GetString
      languages_ := if j.1 ∈ s.languages_ then s.languages_ else s.languages_ ++ [j.1] }

/-- The body of the outer loop of `LoadMultipleLanguageJSON`. -/
def LoadMultipleLanguageJSON.entry (hash : String → K) (s : Localization K)
    (i : String × JSONValue) : Localization K :=
  if i.1 = "" then s
  else if i.2.IsObject then i.2.members.foldl (LoadMultipleLanguageJSON.pair hash i.1) s
  else s

/-- The method `Localization::LoadMultipleLanguageJSON`. -/
def LoadMultipleLanguageJSON (hash : String → K) (s : Localization K) (source : JSONValue) :
    Localization K :=
  source.members.foldl (LoadMultipleLanguageJSON.entry hash) s

/-- The body of the loop of `LoadSingleLanguageJSON`, on the pair of the
referenced map `translations` and the flag `updated`. -/
def LoadSingleLanguageJSON.entry (hash : String → K) (acc : HashMap K String × Bool)
    (i : String × JSONValue) : HashMap K String × Bool :=
  if i.1 = "" then acc
  else if i.2.IsString then
    if i.2.GetString = "" then acc
    else
      (HashMap.assign (HashMap.subscript acc.1 (hash i.1) "") (hash i.1) i.2.GetString, true)
  else acc

/-- The method `Localization::LoadSingleLanguageJSON`. -/
def LoadSingleLanguageJSON (hash : String → K) (s : Localization K) (source : JSONValue)
    (language : String) : Localization K :=
  if source.Size = 0 then s
  else
    let strings1 := HashMap.subscript s.strings_ (hash language) []
    let translations := (HashMap.Find strings1 (hash language)).getD []
    let r := source.members.foldl (LoadSingleLanguageJSON.entry hash) (translations, false)
    { s with
      strings_ := HashMap.assign strings1 (hash language) r.1
      languages_ :=
        if r.2 = true ∧ language ∉ s.languages_ then s.languages_ ++ [language]
        else s.languages_ }

/-- The method `Localization::LoadJSONFile`; `jsonFile` is the root of the
resource that the resource cache returned for the name, if any. -/
def LoadJSONFile (hash : String → K) (s : Localization K) (jsonFile : Option JSONValue)
    (language : String) : Localization K :=
  match jsonFile with
  | some root =>
    if language = "" then LoadMultipleLanguageJSON hash s root
    else LoadSingleLanguageJSON hash s root language
  | none => s

/-- The states that the public mutators produce from a freshly constructed
`Localization`. -/
inductive Reachable (hash : String → K) : Localization K → Prop
  | initial : Reachable hash (Localization.initial K)
  | reset {s : Localization K} : Reachable hash s → Reachable hash (Reset s)
  | setLanguage {s : Localization K} (index : Int) :
      Reachable hash s → Reachable hash (SetLanguage s index)
  | setLanguageByName {s : Localization K} (language : String) :
      Reachable hash s → Reachable hash (SetLanguageByName s language)
  | loadMultiple {s : Localization K} (source : JSONValue) :
      Reachable hash s → Reachable hash (LoadMultipleLanguageJSON hash s source)
  | loadSingle {s : Localization K} (source : JSONValue) (language : String) :
      Reachable hash s → Reachable hash (LoadSingleLanguageJSON hash s source language)

/-- The states that `Reset`, the two `SetLanguage` overloads and `LoadJSONFile`
produce from a freshly constructed `Localization`: every load goes through the
dispatch of `LoadJSONFile`. -/
inductive ReachableViaFile (hash : String → K) : Localization K → Prop
  | initial : ReachableViaFile hash (Localization.initial K)
  | reset {s : Localization K} : ReachableViaFile hash s → ReachableViaFile hash (Reset s)
  | setLanguage {s : Localization K} (index : Int) :
      ReachableViaFile hash s → ReachableViaFile hash (SetLanguage s index)
  | setLanguageByName {s : Localization K} (language : String) :
      ReachableViaFile hash s → ReachableViaFile hash (SetLanguageByName s language)
  | loadJSONFile {s : Localization K} (jsonFile : Option JSONValue) (language : String) :
      ReachableViaFile hash s → ReachableViaFile hash (LoadJSONFile hash s jsonFile language)

end Operations

/-! ## Vocabulary of the properties -/

section Vocabulary

variable {K : Type} [DecidableEq K]

/-- The text that the table stores under a language key and an id key, if any. -/
def translationAt (strings : HashMap K (HashMap K String)) (k1 k2 : K) : Option String :=
  match HashMap.Find strings k1 with
  | some translations => HashMap.Find translations k2
  | none => none

/-- A call of one of the two loaders: a document of the multi-language shape,
or a document of the single-language shape with its language. -/
inductive LoadCall where
  | multiple (source : JSONValue) : LoadCall
  | single (source : JSONValue) (language : String) : LoadCall

/-- The loader call applied to a state. -/
def LoadCall.apply (hash : String → K) (s : Localization K) : LoadCall → Localization K
  | .multiple source => LoadMultipleLanguageJSON hash s source
  | .single source language => LoadSingleLanguageJSON hash s source language

/-- The entries that one member of a multi-language document contributes. -/
def memberEntries (i : String × JSONValue) : List (String × String × String) :=
  if i.2.IsObject then i.2.members.map fun j => (j.1, i.1, j.2.GetString) else []

/-- The entries (language, id, text) of the document of a loader call, in
document order; the text of a value that is not a string is empty. -/
def LoadCall.entries : LoadCall → List (String × String × String)
  | .multiple source =>
    source.members.flatMap memberEntries
  | .single source language => source.members.map fun i => (language, i.1, i.2.GetString)

/-- The effect of one entry (language, id, text) of a multi-language document:
the inner loop body of `LoadMultipleLanguageJSON` behind the test of the id
that its outer loop makes. -/
def storeEntry (hash : String → K) (s : Localization K) (e : String × String × String) :
    Localization K :=
  if e.2.1 = "" then s else LoadMultipleLanguageJSON.pair hash e.2.1 s (e.1, .string e.2.2)

/-- A member of a single-language document with a non-empty id and a non-empty
string value. -/
def validMember (i : String × JSONValue) : Bool :=
  decide (i.1 ≠ "") && i.2.IsString && decide (i.2.GetString ≠ "")

/-- The language list and the table agree on the languages that have
translations: every listed language has a non-empty inner map in the table, and
every non-empty inner map of the table is stored under the key of a listed
language. -/
def TableMatchesLanguages (hash : String → K) (s : Localization K) : Prop :=
  (∀ name ∈ s.languages_,
      ∃ translations, HashMap.Find s.strings_ (hash name) = some translations
        ∧ translations ≠ [])
    ∧ (∀ k translations, HashMap.Find s.strings_ k = some translations →
        translations ≠ [] → ∃ name ∈ s.languages_, hash name = k)

/-- The description of `SetLanguage(name)` in the specification: nothing
happens when the name is not in the language list, and otherwise the call
behaves as `SetLanguage(GetLanguageIndex(name))`. -/
def SetLanguageByNameSpec (s : Localization K) (name : String) : Localization K :=
  if name ∈ s.languages_ then SetLanguage s (GetLanguageIndex s name) else s

/-- An entry (language, id, text) with a non-empty language name, a non-empty id
and a non-empty text. -/
def validEntry (e : String × String × String) : Bool :=
  decide (e.1 ≠ "") && decide (e.2.1 ≠ "") && decide (e.2.2 ≠ "")

/-- The entries of its document that a loader call writes to the table: the
multi-language loader those with non-empty language, id and text, the
single-language loader those with non-empty id and text (it makes no test of
its language argument). -/
def LoadCall.stores : LoadCall → String × String × String → Bool
  | .multiple _, e => validEntry e
  | .single _ _, e => decide (e.2.1 ≠ "") && decide (e.2.2 ≠ "")

/-- The names of a list, each once, in the order of their first occurrence. -/
def firstOccurrences : List String → List String
  | [] => []
  | a :: rest => a :: (firstOccurrences rest).filter fun b => decide (b ≠ a)

/-- No text stored in the table is empty. -/
def TextsNonEmpty (s : Localization K) : Prop :=
  ∀ k1 k2 text, translationAt s.strings_ k1 k2 = some text → text ≠ ""

/-- Every text stored in the table is non-empty and sits under the keys of a
non-empty language name and of a non-empty id, and the language list has no
empty name. -/
def EntriesNamed (hash : String → K) (s : Localization K) : Prop :=
  "" ∉ s.languages_
    ∧ ∀ k1 k2 text, translationAt s.strings_ k1 k2 = some text →
        text ≠ "" ∧ ∃ language id,
          language ≠ "" ∧ id ≠ "" ∧ hash language = k1 ∧ hash id = k2

/-- The loader calls that `LoadJSONFile` makes: the multi-language loader, and
the single-language loader with a non-empty language. -/
def LoadCall.dispatched : LoadCall → Prop
  | .multiple _ => True
  | .single _ language => language ≠ ""

end Vocabulary

/-! ## Sample documents -/

/-- The document `{"hello": {"en": "Hello", "fr": "Bonjour"}}`. -/
def helloDocument : JSONValue :=
  .object [("hello", .object [("en", .string "Hello"), ("fr", .string "Bonjour")])]

/-- The state after loading `helloDocument` into a fresh `Localization`. -/
def helloState : Localization String :=
  LoadMultipleLanguageJSON id (Localization.initial String) helloDocument

/-- The state after loading the single-language document `{"greeting": 42}`,
whose only value is not a string, for "en" into a fresh `Localization`. -/
def rejectedState : Localization String :=
  LoadSingleLanguageJSON id (Localization.initial String)
    (.object [("greeting", .number 42)]) "en"

/-! ## Hash map lemmas -/

section HashMapLemmas

variable {K V : Type} [DecidableEq K]

theorem HashMap.Find_append_of_none (m m' : HashMap K V) (k : K)
    (h : HashMap.Find m k = none) : HashMap.Find (m ++ m') k = HashMap.Find m' k := by
  induction m with
  | nil => rfl
  | cons x rest ih =>
    obtain ⟨k', v⟩ := x
    simp only [HashMap.Find, List.cons_append] at h ⊢
    by_cases hk : k' = k
    · simp [hk] at h
    · simp only [hk, if_false] at h ⊢
      exact ih h

theorem HashMap.Find_subscript (m : HashMap K V) (k k' : K) (dflt : V) :
    HashMap.Find (HashMap.subscript m k dflt) k'
      = if k' = k then some ((HashMap.Find m k).getD dflt) else HashMap.Find m k' := by
  unfold HashMap.subscript
  cases hfind : HashMap.Find m k with
  | some v =>
    by_cases hk : k' = k
    · subst hk; simp [hfind]
    · simp [hk]
  | none =>
    by_cases hk : k' = k
    · subst hk
      simp [HashMap.Find_append_of_none m _ k' hfind, HashMap.Find]
    · simp only [hk, if_false]
      induction m with
      | nil => simp [HashMap.Find, Ne.symm hk]
      | cons x rest ih =>
        obtain ⟨k0, v0⟩ := x
        simp only [HashMap.Find, List.cons_append] at hfind ⊢
        by_cases h0 : k0 = k
        · simp [h0] at hfind
        · simp only [h0, if_false] at hfind
          by_cases h1 : k0 = k'
          · simp [h1]
          · simp only [h1, if_false]
            exact ih hfind

theorem HashMap.Find_assign (m : HashMap K V) (k k' : K) (v : V) :
    HashMap.Find (HashMap.assign m k v) k'
      = if k' = k then (HashMap.Find m k).map (fun _ => v) else HashMap.Find m k' := by
  induction m with
  | nil => simp [HashMap.assign, HashMap.Find]
  | cons x rest ih =>
    obtain ⟨k0, v0⟩ := x
    simp only [HashMap.assign]
    by_cases h0 : k0 = k
    · subst h0
      by_cases hk : k' = k0
      · subst hk; simp [HashMap.Find]
      · simp [HashMap.Find, hk, Ne.symm hk]
    · simp only [h0, if_false, HashMap.Find, ih]
      by_cases hk : k' = k
      · subst hk; simp [h0]
      · simp only [hk, if_false]

theorem HashMap.Find_assign_subscript (m : HashMap K V) (k k' : K) (dflt v : V) :
    HashMap.Find (HashMap.assign (HashMap.subscript m k dflt) k v) k'
      = if k' = k then some v else HashMap.Find m k' := by
  rw [HashMap.Find_assign, HashMap.Find_subscript, HashMap.Find_subscript]
  by_cases hk : k' = k <;> simp [hk]

end HashMapLemmas

/-! ## Lemmas on the language index -/

section IndexLemmas

variable {K : Type}

theorem SetLanguageByName_fields (s : Localization K) (language : String)
    (h : language ∈ s.languages_) :
    (SetLanguageByName s language).languages_ = s.languages_
      ∧ (SetLanguageByName s language).strings_ = s.strings_
      ∧ (SetLanguageByName s language).languageIndex_ = s.languages_.indexOf language := by
  have hlt : s.languages_.indexOf language ≠ s.languages_.length :=
    Nat.ne_of_lt (List.indexOf_lt_length.mpr h)
  unfold SetLanguageByName
  by_cases hidx : s.languages_.indexOf language = s.languageIndex_
  · simp [hlt, hidx]
  · simp [hlt, hidx]

theorem SetLanguage_fields (s : Localization K) (index : Int) :
    (SetLanguage s index).languages_ = s.languages_
      ∧ (SetLanguage s index).strings_ = s.strings_ := by
  unfold SetLanguage
  split_ifs <;> exact ⟨rfl, rfl⟩

theorem SetLanguageByName_fields_all (s : Localization K) (language : String) :
    (SetLanguageByName s language).languages_ = s.languages_
      ∧ (SetLanguageByName s language).strings_ = s.strings_ := by
  unfold SetLanguageByName
  dsimp only
  split_ifs <;> exact ⟨rfl, rfl⟩

theorem nodup_push (l : List String) (a : String) (h : l.Nodup) (ha : a ∉ l) :
    (l ++ [a]).Nodup := by
  rw [List.nodup_append]
  refine ⟨h, List.nodup_singleton a, ?_⟩
  intro x hx hx'
  rw [List.mem_singleton] at hx'
  exact ha (hx' ▸ hx)

theorem toSigned_of_lt (n : Nat) (h : n < 2147483648) : toSigned n = (n : Int) := by
  unfold toSigned
  split_ifs <;> omega

theorem toUnsigned_toSigned (n : Nat) (h : n < 4294967296) : toUnsigned (toSigned n) = n := by
  unfold toUnsigned toSigned
  split_ifs <;> omega

theorem toUnsigned_natCast (n : Nat) (h : n < 4294967296) : toUnsigned (n : Int) = n := by
  unfold toUnsigned
  omega

theorem GetLanguageIndex_of_mem (s : Localization K) (name : String) (hname : name ≠ "")
    (hmem : name ∈ s.languages_) :
    GetLanguageIndex s name = toSigned (s.languages_.indexOf name) := by
  have hlt : s.languages_.indexOf name ≠ s.languages_.length :=
    Nat.ne_of_lt (List.indexOf_lt_length.mpr hmem)
  have hne : s.languages_ ≠ [] := List.ne_nil_of_mem hmem
  unfold GetLanguageIndex
  rw [if_neg hname, if_neg hne]
  dsimp only
  rw [if_pos hlt]

theorem head?_languages_of_index_zero (s : Localization K) (h0 : s.languageIndex_ = 0)
    (hne : s.languages_ ≠ []) : s.languages_.head? = some (GetLanguage s) := by
  unfold GetLanguage
  rw [h0]
  cases hl : s.languages_ with
  | nil => exact absurd hl hne
  | cons a rest => simp

theorem SetLanguageByName_eq_spec (s : Localization K) (name : String)
    (hname : name ≠ "" ∨ "" ∉ s.languages_) (hfit : s.languages_.length ≤ 4294967296) :
    SetLanguageByName s name = SetLanguageByNameSpec s name := by
  unfold SetLanguageByNameSpec
  by_cases hmem : name ∈ s.languages_
  · have hlt : s.languages_.indexOf name < s.languages_.length :=
      List.indexOf_lt_length.mpr hmem
    have hname' : name ≠ "" := by
      rcases hname with h | h
      · exact h
      · intro hempty
        exact h (hempty ▸ hmem)
    rw [if_pos hmem, GetLanguageIndex_of_mem s name hname' hmem]
    unfold SetLanguageByName SetLanguage
    rw [toUnsigned_toSigned _ (by omega)]
    dsimp only
    rw [if_neg (Nat.ne_of_lt hlt), if_neg (Nat.not_le.mpr hlt)]
  · rw [if_neg hmem]
    unfold SetLanguageByName
    dsimp only
    rw [if_pos (List.indexOf_eq_length.mpr hmem)]

end IndexLemmas

/-! ## Lemmas on the operations -/

section OperationLemmas

variable {K : Type} [DecidableEq K]

theorem translationAt_storeTranslation (hash : String → K)
    (strings : HashMap K (HashMap K String)) (lang id text : String) (k1 k2 : K) :
    translationAt (storeTranslation hash strings lang id text) k1 k2
      = if k1 = hash lang ∧ k2 = hash id then some text else translationAt strings k1 k2 := by
  unfold translationAt storeTranslation
  simp only [HashMap.Find_assign, HashMap.Find_subscript, if_true, Option.getD_some]
  by_cases h1 : k1 = hash lang
  · subst h1
    simp only [if_true, Option.map_some', true_and, HashMap.Find_assign_subscript]
    by_cases h2 : k2 = hash id
    · simp [h2]
    · simp only [h2, if_false]
      cases HashMap.Find strings (hash lang) <;> simp [HashMap.Find]
  · simp [h1]

theorem Get_eq (hash : String → K) (s : Localization K) (id : String) :
    Get hash s id
      = if id = "" then ""
        else if s.languageIndex_ ≥ s.languages_.length then id
        else (translationAt s.strings_ (hash (s.languages_.getD s.languageIndex_ ""))
                (hash id)).getD id := by
  unfold Get translationAt
  by_cases h1 : id = ""
  · simp [h1]
  · by_cases h2 : s.languageIndex_ ≥ s.languages_.length
    · simp [h1, h2]
    · simp only [h1, h2, if_false]
      cases HashMap.Find s.strings_ (hash (s.languages_.getD s.languageIndex_ "")) with
      | none => rfl
      | some translations =>
        cases hfind : HashMap.Find translations (hash id) <;> simp [hfind]

theorem Get_SetLanguageByName (hash : String → K) (s : Localization K)
    (language id text : String) (hmem : language ∈ s.languages_) (hid : id ≠ "")
    (hat : translationAt s.strings_ (hash language) (hash id) = some text) :
    Get hash (SetLanguageByName s language) id = text := by
  obtain ⟨hl, hs, hi⟩ := SetLanguageByName_fields s language hmem
  have hlt : s.languages_.indexOf language < s.languages_.length :=
    List.indexOf_lt_length.mpr hmem
  rw [Get_eq, hl, hs, hi]
  have hget : s.languages_.getD (s.languages_.indexOf language) "" = language := by
    rw [List.getD_eq_getElem _ _ hlt]
    exact List.getElem_indexOf hlt
  rw [if_neg hid, if_neg (Nat.not_le.mpr hlt), hget, hat]
  rfl

theorem foldl_eq_self {α β : Type} (f : β → α → β) (l : List α) (b : β)
    (h : ∀ a ∈ l, ∀ b, f b a = b) : l.foldl f b = b := by
  induction l with
  | nil => rfl
  | cons a rest ih =>
    rw [List.foldl_cons, h a (List.mem_cons_self a rest) b]
    exact ih fun a ha => h a (List.mem_cons_of_mem _ ha)

theorem storeEntry_eq (hash : String → K) (s : Localization K) (e : String × String × String) :
    storeEntry hash s e
      = if e.2.1 = "" then s else if e.1 = "" then s else if e.2.2 = "" then s
        else
          { s with
            strings_ := storeTranslation hash s.strings_ e.1 e.2.1 e.2.2
            languages_ :=
              if e.1 ∈ s.languages_ then s.languages_ else s.languages_ ++ [e.1] } := rfl

theorem entry_eq_foldl (hash : String → K) (s : Localization K) (i : String × JSONValue) :
    LoadMultipleLanguageJSON.entry hash s i = (memberEntries i).foldl (storeEntry hash) s := by
  unfold LoadMultipleLanguageJSON.entry memberEntries
  by_cases hid : i.1 = ""
  · rw [if_pos hid]
    symm
    apply foldl_eq_self
    intro e he b
    have h2 : e.2.1 = "" := by
      by_cases hobj : i.2.IsObject = true
      · rw [if_pos hobj] at he
        obtain ⟨j, _, rfl⟩ := List.mem_map.mp he
        exact hid
      · rw [if_neg hobj] at he
        cases he
    rw [storeEntry_eq, if_pos h2]
  · rw [if_neg hid]
    by_cases hobj : i.2.IsObject = true
    · rw [if_pos hobj, if_pos hobj, List.foldl_map]
      congr 1
      funext s j
      rw [storeEntry, if_neg hid]
      rfl
    · rw [if_neg hobj, if_neg hobj]
      rfl

theorem LoadMultipleLanguageJSON_eq_foldl (hash : String → K) (s : Localization K)
    (source : JSONValue) :
    LoadMultipleLanguageJSON hash s source
      = (LoadCall.entries (.multiple source)).foldl (storeEntry hash) s := by
  show source.members.foldl (LoadMultipleLanguageJSON.entry hash) s
    = (source.members.flatMap memberEntries).foldl (storeEntry hash) s
  generalize source.members = ms
  induction ms generalizing s with
  | nil => rfl
  | cons i rest ih =>
    rw [List.foldl_cons, List.flatMap_cons, List.foldl_append, ih, entry_eq_foldl]

theorem storeEntry_languageIndex (hash : String → K) (s : Localization K)
    (e : String × String × String) :
    (storeEntry hash s e).languageIndex_ = s.languageIndex_
      ∧ (storeEntry hash s e).sentEvents = s.sentEvents := by
  rw [storeEntry_eq]
  split_ifs <;> exact ⟨rfl, rfl⟩

theorem mem_languages_storeEntry (hash : String → K) (s : Localization K)
    (e : String × String × String) (l : String) (h : l ∈ s.languages_) :
    l ∈ (storeEntry hash s e).languages_ := by
  rw [storeEntry_eq]
  split_ifs <;> simp [h]

theorem mem_languages_storeEntry_self (hash : String → K) (s : Localization K)
    (e : String × String × String) (h1 : e.1 ≠ "") (h2 : e.2.1 ≠ "") (h3 : e.2.2 ≠ "") :
    e.1 ∈ (storeEntry hash s e).languages_ := by
  rw [storeEntry_eq, if_neg h2, if_neg h1, if_neg h3]
  by_cases h : e.1 ∈ s.languages_ <;> simp [h]

theorem translationAt_storeEntry (hash : String → K) (s : Localization K)
    (e : String × String × String) (k1 k2 : K) :
    translationAt (storeEntry hash s e).strings_ k1 k2
      = if e.1 ≠ "" ∧ e.2.1 ≠ "" ∧ e.2.2 ≠ "" ∧ k1 = hash e.1 ∧ k2 = hash e.2.1
        then some e.2.2 else translationAt s.strings_ k1 k2 := by
  rw [storeEntry_eq]
  by_cases h2 : e.2.1 = ""
  · simp [h2]
  · by_cases h1 : e.1 = ""
    · simp [h1]
    · by_cases h3 : e.2.2 = ""
      · simp [h3]
      · simp [h1, h2, h3, translationAt_storeTranslation]

theorem foldl_storeEntry_last (hash : String → K) (hinj : Function.Injective hash)
    (language id text : String) (post : List (String × String × String))
    (hlast : ∀ e ∈ post, ¬ (e.1 = language ∧ e.2.1 = id)) (s : Localization K)
    (hmem : language ∈ s.languages_)
    (hat : translationAt s.strings_ (hash language) (hash id) = some text) :
    language ∈ (post.foldl (storeEntry hash) s).languages_
      ∧ translationAt (post.foldl (storeEntry hash) s).strings_ (hash language) (hash id)
          = some text := by
  induction post generalizing s with
  | nil => exact ⟨hmem, hat⟩
  | cons e rest ih =>
    rw [List.foldl_cons]
    apply ih (fun e' he' => hlast e' (List.mem_cons_of_mem _ he'))
    · exact mem_languages_storeEntry hash s e language hmem
    · rw [translationAt_storeEntry, if_neg, hat]
      rintro ⟨-, -, -, hk1, hk2⟩
      exact hlast e (List.mem_cons_self e rest) ⟨(hinj hk1).symm, (hinj hk2).symm⟩

theorem JSONValue.members_eq_nil_of_Size (source : JSONValue) (h : source.Size = 0) :
    source.members = [] := by
  cases source with
  | object ms => exact List.length_eq_zero.mp h
  | _ => rfl

theorem JSONValue.IsString_of_GetString (v : JSONValue) (h : v.GetString ≠ "") :
    v.IsString = true := by
  cases v with
  | string t => rfl
  | _ => exact absurd rfl h

theorem single_entry_eq (hash : String → K) (acc : HashMap K String × Bool)
    (i : String × JSONValue) :
    LoadSingleLanguageJSON.entry hash acc i
      = if validMember i = true then
          (HashMap.assign (HashMap.subscript acc.1 (hash i.1) "") (hash i.1) i.2.GetString, true)
        else acc := by
  unfold LoadSingleLanguageJSON.entry validMember
  by_cases h1 : i.1 = ""
  · simp [h1]
  · by_cases h2 : i.2.IsString = true
    · by_cases h3 : i.2.GetString = ""
      · simp [h1, h2, h3]
      · simp [h1, h2, h3]
    · simp [h1, h2]

theorem single_fold_updated (hash : String → K) (ms : List (String × JSONValue))
    (acc : HashMap K String × Bool) :
    (ms.foldl (LoadSingleLanguageJSON.entry hash) acc).2 = (acc.2 || ms.any validMember) := by
  induction ms generalizing acc with
  | nil => simp
  | cons i rest ih =>
    rw [List.foldl_cons, ih, single_entry_eq, List.any_cons]
    by_cases hv : validMember i = true
    · simp [hv]
    · simp [hv]

theorem single_fold_of_not_updated (hash : String → K) (ms : List (String × JSONValue))
    (acc : HashMap K String × Bool) (h : ms.any validMember = false) :
    ms.foldl (LoadSingleLanguageJSON.entry hash) acc = acc := by
  apply foldl_eq_self
  intro i hi b
  have hv : validMember i = false := by
    rw [List.any_eq_false] at h
    simpa using h i hi
  rw [single_entry_eq, hv]
  rfl

theorem single_fold_last (hash : String → K) (hinj : Function.Injective hash)
    (id text : String) (post : List (String × JSONValue))
    (hlast : ∀ i ∈ post, i.1 ≠ id) (acc : HashMap K String × Bool)
    (hat : HashMap.Find acc.1 (hash id) = some text) :
    HashMap.Find (post.foldl (LoadSingleLanguageJSON.entry hash) acc).1 (hash id)
      = some text := by
  induction post generalizing acc with
  | nil => exact hat
  | cons i rest ih =>
    rw [List.foldl_cons]
    apply ih fun i' hi' => hlast i' (List.mem_cons_of_mem _ hi')
    rw [single_entry_eq]
    by_cases hv : validMember i = true
    · rw [if_pos hv, HashMap.Find_assign_subscript, if_neg, hat]
      intro hk
      exact hlast i (List.mem_cons_self i rest) (hinj hk).symm
    · rw [if_neg hv, hat]

theorem LoadSingleLanguageJSON_index (hash : String → K) (s : Localization K)
    (source : JSONValue) (language : String) :
    (LoadSingleLanguageJSON hash s source language).languageIndex_ = s.languageIndex_
      ∧ (LoadSingleLanguageJSON hash s source language).sentEvents = s.sentEvents := by
  unfold LoadSingleLanguageJSON
  split_ifs <;> exact ⟨rfl, rfl⟩

theorem LoadSingleLanguageJSON_languages (hash : String → K) (s : Localization K)
    (source : JSONValue) (language : String) :
    (LoadSingleLanguageJSON hash s source language).languages_
      = if source.members.any validMember = true ∧ language ∉ s.languages_
        then s.languages_ ++ [language] else s.languages_ := by
  unfold LoadSingleLanguageJSON
  by_cases hsize : source.Size = 0
  · simp [hsize, JSONValue.members_eq_nil_of_Size source hsize]
  · simp only [hsize, if_false, single_fold_updated, Bool.false_or]

theorem translationAt_LoadSingleLanguageJSON (hash : String → K) (s : Localization K)
    (source : JSONValue) (language : String) (k1 k2 : K) :
    translationAt (LoadSingleLanguageJSON hash s source language).strings_ k1 k2
      = if k1 = hash language then
          HashMap.Find (source.members.foldl (LoadSingleLanguageJSON.entry hash)
            ((HashMap.Find s.strings_ (hash language)).getD [], false)).1 k2
        else translationAt s.strings_ k1 k2 := by
  unfold LoadSingleLanguageJSON
  by_cases hsize : source.Size = 0
  · rw [if_pos hsize, JSONValue.members_eq_nil_of_Size source hsize]
    by_cases hk : k1 = hash language
    · subst hk
      unfold translationAt
      cases HashMap.Find s.strings_ (hash language) <;> simp [HashMap.Find]
    · rw [if_neg hk]
  · rw [if_neg hsize]
    unfold translationAt
    simp only [HashMap.Find_assign, HashMap.Find_subscript, if_true, Option.getD_some]
    by_cases hk : k1 = hash language
    · simp [hk]
    · simp [hk]

theorem HashMap.assign_subscript_ne_nil {V : Type} (m : HashMap K V) (k : K) (dflt v : V) :
    HashMap.assign (HashMap.subscript m k dflt) k v ≠ [] := by
  intro h
  have hfind := HashMap.Find_assign_subscript m k k dflt v
  rw [h, if_pos rfl] at hfind
  cases hfind

theorem Find_storeTranslation (hash : String → K) (strings : HashMap K (HashMap K String))
    (lang id text : String) (k : K) :
    HashMap.Find (storeTranslation hash strings lang id text) k
      = if k = hash lang then
          some (HashMap.assign
            (HashMap.subscript ((HashMap.Find strings (hash lang)).getD []) (hash id) "")
            (hash id) text)
        else HashMap.Find strings k := by
  unfold storeTranslation
  simp only [HashMap.Find_assign, HashMap.Find_subscript, if_true, Option.getD_some]
  by_cases hk : k = hash lang
  · simp [hk]
  · simp [hk]

theorem storeEntry_nodup (hash : String → K) (s : Localization K)
    (e : String × String × String) (h : s.languages_.Nodup) :
    (storeEntry hash s e).languages_.Nodup := by
  rw [storeEntry_eq]
  split_ifs with h1 h2 h3 h4
  · exact h
  · exact h
  · exact h
  · exact h
  · exact nodup_push _ _ h h4

theorem storeEntry_matches (hash : String → K) (s : Localization K)
    (e : String × String × String) (h : TableMatchesLanguages hash s) :
    TableMatchesLanguages hash (storeEntry hash s e) := by
  rw [storeEntry_eq]
  by_cases h2 : e.2.1 = ""
  · rw [if_pos h2]; exact h
  by_cases h1 : e.1 = ""
  · rw [if_neg h2, if_pos h1]; exact h
  by_cases h3 : e.2.2 = ""
  · rw [if_neg h2, if_neg h1, if_pos h3]; exact h
  rw [if_neg h2, if_neg h1, if_neg h3]
  obtain ⟨hlist, htable⟩ := h
  have hmem : ∀ name, name ∈ s.languages_ →
      name ∈ (if e.1 ∈ s.languages_ then s.languages_ else s.languages_ ++ [e.1]) := by
    intro name hname
    split_ifs
    · exact hname
    · exact List.mem_append_left _ hname
  have hself : e.1 ∈ (if e.1 ∈ s.languages_ then s.languages_ else s.languages_ ++ [e.1]) := by
    split_ifs with hin
    · exact hin
    · simp
  constructor
  · intro name hname
    show ∃ translations,
      HashMap.Find (storeTranslation hash s.strings_ e.1 e.2.1 e.2.2) (hash name)
        = some translations ∧ translations ≠ []
    rw [Find_storeTranslation]
    by_cases hk : hash name = hash e.1
    · rw [if_pos hk]
      exact ⟨_, rfl, HashMap.assign_subscript_ne_nil _ _ _ _⟩
    · rw [if_neg hk]
      apply hlist
      have hname' :
          name ∈ (if e.1 ∈ s.languages_ then s.languages_ else s.languages_ ++ [e.1]) := hname
      split_ifs at hname'
      · exact hname'
      · rcases List.mem_append.mp hname' with hin | hin
        · exact hin
        · rw [List.mem_singleton] at hin
          exact absurd (congrArg hash hin) hk
  · intro k translations hfind hne
    have hfind' : HashMap.Find (storeTranslation hash s.strings_ e.1 e.2.1 e.2.2) k
        = some translations := hfind
    rw [Find_storeTranslation] at hfind'
    by_cases hk : k = hash e.1
    · exact ⟨e.1, hself, hk.symm⟩
    · rw [if_neg hk] at hfind'
      obtain ⟨name, hname, hhash⟩ := htable k translations hfind' hne
      exact ⟨name, hmem name hname, hhash⟩

theorem foldl_storeEntry_nodup (hash : String → K) (es : List (String × String × String))
    (s : Localization K) (hnodup : s.languages_.Nodup) :
    (es.foldl (storeEntry hash) s).languages_.Nodup := by
  induction es generalizing s with
  | nil => exact hnodup
  | cons e rest ih =>
    rw [List.foldl_cons]
    exact ih _ (storeEntry_nodup hash s e hnodup)

theorem foldl_storeEntry_matches (hash : String → K) (es : List (String × String × String))
    (s : Localization K) (h : TableMatchesLanguages hash s) :
    TableMatchesLanguages hash (es.foldl (storeEntry hash) s) := by
  induction es generalizing s with
  | nil => exact h
  | cons e rest ih =>
    rw [List.foldl_cons]
    exact ih _ (storeEntry_matches hash s e h)

theorem Find_LoadSingleLanguageJSON (hash : String → K) (s : Localization K)
    (source : JSONValue) (language : String) (k : K) (hsize : source.Size ≠ 0) :
    HashMap.Find (LoadSingleLanguageJSON hash s source language).strings_ k
      = if k = hash language then
          some (source.members.foldl (LoadSingleLanguageJSON.entry hash)
            ((HashMap.Find s.strings_ (hash language)).getD [], false)).1
        else HashMap.Find s.strings_ k := by
  unfold LoadSingleLanguageJSON
  rw [if_neg hsize]
  simp only [HashMap.Find_assign, HashMap.Find_subscript, if_true, Option.getD_some]
  by_cases hk : k = hash language
  · simp [hk]
  · simp [hk]

theorem single_fold_keeps_ne_nil (hash : String → K) (ms : List (String × JSONValue))
    (acc : HashMap K String × Bool) (h : acc.1 ≠ []) :
    (ms.foldl (LoadSingleLanguageJSON.entry hash) acc).1 ≠ [] := by
  induction ms generalizing acc with
  | nil => exact h
  | cons i rest ih =>
    rw [List.foldl_cons]
    apply ih
    rw [single_entry_eq]
    split_ifs
    · exact HashMap.assign_subscript_ne_nil _ _ _ _
    · exact h

theorem single_fold_ne_nil (hash : String → K) (ms : List (String × JSONValue))
    (acc : HashMap K String × Bool) (h : ms.any validMember = true) :
    (ms.foldl (LoadSingleLanguageJSON.entry hash) acc).1 ≠ [] := by
  induction ms generalizing acc with
  | nil => simp at h
  | cons i rest ih =>
    rw [List.foldl_cons]
    by_cases hv : validMember i = true
    · apply single_fold_keeps_ne_nil
      rw [single_entry_eq, if_pos hv]
      exact HashMap.assign_subscript_ne_nil _ _ _ _
    · apply ih
      rw [List.any_cons] at h
      simpa [hv] using h

theorem LoadSingleLanguageJSON_nodup (hash : String → K) (s : Localization K)
    (source : JSONValue) (language : String) (h : s.languages_.Nodup) :
    (LoadSingleLanguageJSON hash s source language).languages_.Nodup := by
  rw [LoadSingleLanguageJSON_languages]
  split_ifs with hc
  · exact nodup_push _ _ h hc.2
  · exact h

theorem LoadSingleLanguageJSON_matches (hash : String → K) (s : Localization K)
    (source : JSONValue) (language : String) (h : TableMatchesLanguages hash s) :
    TableMatchesLanguages hash (LoadSingleLanguageJSON hash s source language) := by
  by_cases hsize : source.Size = 0
  · have hsame : LoadSingleLanguageJSON hash s source language = s := by
      unfold LoadSingleLanguageJSON
      rw [if_pos hsize]
    rw [hsame]
    exact h
  obtain ⟨hlist, htable⟩ := h
  have hmem : ∀ name, name ∈ s.languages_ →
      name ∈ (LoadSingleLanguageJSON hash s source language).languages_ := by
    intro name hname
    rw [LoadSingleLanguageJSON_languages]
    split_ifs
    · exact List.mem_append_left _ hname
    · exact hname
  by_cases hany : source.members.any validMember = true
  · have hself : language ∈ (LoadSingleLanguageJSON hash s source language).languages_ := by
      rw [LoadSingleLanguageJSON_languages]
      by_cases hin : language ∈ s.languages_
      · simp [hin]
      · simp [hany, hin]
    constructor
    · intro name hname
      rw [Find_LoadSingleLanguageJSON hash s source language _ hsize]
      by_cases hk : hash name = hash language
      · rw [if_pos hk]
        exact ⟨_, rfl, single_fold_ne_nil hash _ _ hany⟩
      · rw [if_neg hk]
        apply hlist
        rw [LoadSingleLanguageJSON_languages] at hname
        split_ifs at hname
        · rcases List.mem_append.mp hname with hin | hin
          · exact hin
          · rw [List.mem_singleton] at hin
            exact absurd (congrArg hash hin) hk
        · exact hname
    · intro k translations hfind hne
      rw [Find_LoadSingleLanguageJSON hash s source language _ hsize] at hfind
      by_cases hk : k = hash language
      · exact ⟨language, hself, hk.symm⟩
      · rw [if_neg hk] at hfind
        obtain ⟨name, hname, hhash⟩ := htable k translations hfind hne
        exact ⟨name, hmem name hname, hhash⟩
  · have hany' : source.members.any validMember = false := by
      simpa using hany
    have hlangs : (LoadSingleLanguageJSON hash s source language).languages_ = s.languages_ := by
      rw [LoadSingleLanguageJSON_languages, if_neg]
      rintro ⟨h1, -⟩
      exact hany h1
    have hfold := single_fold_of_not_updated hash source.members
      ((HashMap.Find s.strings_ (hash language)).getD [], false) hany'
    constructor
    · intro name hname
      rw [hlangs] at hname
      obtain ⟨translations, hfind, hne⟩ := hlist name hname
      rw [Find_LoadSingleLanguageJSON hash s source language _ hsize]
      by_cases hk : hash name = hash language
      · rw [if_pos hk, hfold]
        rw [hk] at hfind
        exact ⟨translations, by rw [hfind]; rfl, hne⟩
      · rw [if_neg hk]
        exact ⟨translations, hfind, hne⟩
    · intro k translations hfind hne
      rw [hlangs]
      rw [Find_LoadSingleLanguageJSON hash s source language _ hsize] at hfind
      by_cases hk : k = hash language
      · rw [if_pos hk, hfold] at hfind
        apply htable k translations _ hne
        rw [hk]
        cases hold : HashMap.Find s.strings_ (hash language) with
        | none =>
          rw [hold] at hfind
          exact absurd (Option.some.inj hfind).symm hne
        | some old =>
          rw [hold] at hfind
          exact hfind
      · rw [if_neg hk] at hfind
        exact htable k translations hfind hne

theorem Reachable.nodup (hash : String → K) (s : Localization K) (h : Reachable hash s) :
    s.languages_.Nodup := by
  induction h with
  | initial => exact List.nodup_nil
  | reset _ _ => exact List.nodup_nil
  | setLanguage index _ ih => rw [(SetLanguage_fields _ index).1]; exact ih
  | setLanguageByName language _ ih =>
    rw [(SetLanguageByName_fields_all _ language).1]; exact ih
  | loadMultiple source _ ih =>
    rw [LoadMultipleLanguageJSON_eq_foldl]
    exact foldl_storeEntry_nodup hash _ _ ih
  | loadSingle source language _ ih => exact LoadSingleLanguageJSON_nodup hash _ source language ih

theorem Reachable.tableMatches (hash : String → K) (s : Localization K)
    (h : Reachable hash s) : TableMatchesLanguages hash s := by
  induction h with
  | initial =>
    exact ⟨fun _ hname => absurd hname (List.not_mem_nil _),
      fun _ _ hfind _ => absurd hfind (by simp [Localization.initial, HashMap.Find])⟩
  | reset _ _ =>
    exact ⟨fun _ hname => absurd hname (List.not_mem_nil _),
      fun _ _ hfind _ => absurd hfind (by simp [Reset, HashMap.Find])⟩
  | setLanguage index _ ih =>
    unfold TableMatchesLanguages
    rw [(SetLanguage_fields _ index).1, (SetLanguage_fields _ index).2]
    exact ih
  | setLanguageByName language _ ih =>
    unfold TableMatchesLanguages
    rw [(SetLanguageByName_fields_all _ language).1, (SetLanguageByName_fields_all _ language).2]
    exact ih
  | loadMultiple source _ ih =>
    rw [LoadMultipleLanguageJSON_eq_foldl]
    exact foldl_storeEntry_matches hash _ _ ih
  | loadSingle source language _ ih =>
    exact LoadSingleLanguageJSON_matches hash _ source language ih

theorem firstOccurrences_filter (p : String → Bool) (l : List String) :
    firstOccurrences (l.filter p) = (firstOccurrences l).filter p := by
  induction l with
  | nil => rfl
  | cons b rest ih =>
    by_cases hp : p b = true
    · rw [List.filter_cons_of_pos hp]
      simp only [firstOccurrences]
      rw [List.filter_cons_of_pos hp, ih, List.filter_filter, List.filter_filter]
      congr 1
      apply List.filter_congr
      intro x _
      exact Bool.and_comm _ _
    · rw [List.filter_cons_of_neg hp]
      simp only [firstOccurrences]
      rw [List.filter_cons_of_neg hp, ih, List.filter_filter]
      apply List.filter_congr
      intro x _
      by_cases hx : x = b
      · subst hx
        simp [hp]
      · simp [hx]

theorem mem_firstOccurrences (l : List String) (a : String) :
    a ∈ firstOccurrences l ↔ a ∈ l := by
  induction l with
  | nil => simp [firstOccurrences]
  | cons b rest ih =>
    simp only [firstOccurrences, List.mem_cons, List.mem_filter, ih, decide_eq_true_eq]
    by_cases hab : a = b
    · simp [hab]
    · simp [hab]

theorem nodup_firstOccurrences (l : List String) : (firstOccurrences l).Nodup := by
  induction l with
  | nil => exact List.nodup_nil
  | cons b rest ih =>
    simp only [firstOccurrences]
    rw [List.nodup_cons]
    constructor
    · intro hmem
      have := (List.mem_filter.mp hmem).2
      simp at this
    · exact ih.filter _

theorem head?_firstOccurrences (l : List String) : (firstOccurrences l).head? = l.head? := by
  cases l <;> rfl

theorem storeEntry_languages (hash : String → K) (s : Localization K)
    (e : String × String × String) :
    (storeEntry hash s e).languages_
      = if validEntry e = true ∧ e.1 ∉ s.languages_ then s.languages_ ++ [e.1]
        else s.languages_ := by
  rw [storeEntry_eq]
  unfold validEntry
  by_cases h2 : e.2.1 = ""
  · simp [h2]
  · by_cases h1 : e.1 = ""
    · simp [h1]
    · by_cases h3 : e.2.2 = ""
      · simp [h3]
      · by_cases hmem : e.1 ∈ s.languages_
        · simp [h1, h2, h3, hmem]
        · simp [h1, h2, h3, hmem]

theorem foldl_storeEntry_languages (hash : String → K) (es : List (String × String × String))
    (s : Localization K) :
    (es.foldl (storeEntry hash) s).languages_
      = s.languages_ ++ firstOccurrences
          (((es.filter validEntry).map fun e => e.1).filter
            fun l => decide (l ∉ s.languages_)) := by
  induction es generalizing s with
  | nil => simp [firstOccurrences]
  | cons e rest ih =>
    rw [List.foldl_cons, ih, storeEntry_languages]
    by_cases hv : validEntry e = true
    · rw [List.filter_cons_of_pos hv, List.map_cons]
      by_cases hmem : e.1 ∈ s.languages_
      · rw [if_neg (fun h => h.2 hmem), List.filter_cons_of_neg (by simpa using hmem)]
      · rw [if_pos ⟨hv, hmem⟩, List.filter_cons_of_pos (by simpa using hmem)]
        simp only [firstOccurrences]
        rw [← firstOccurrences_filter, List.filter_filter, List.append_assoc]
        congr 1
        rw [List.singleton_append]
        refine congrArg (fun l => e.1 :: firstOccurrences l) ?_
        apply List.filter_congr
        intro x _
        by_cases hx : x = e.1
        · simp [hx]
        · by_cases hx' : x ∈ s.languages_
          · simp [hx, hx']
          · simp [hx, hx']
    · rw [List.filter_cons_of_neg hv, if_neg (fun h => hv h.1)]

theorem foldl_storeEntry_index (hash : String → K) (es : List (String × String × String))
    (s : Localization K) :
    (es.foldl (storeEntry hash) s).languageIndex_ = s.languageIndex_
      ∧ (es.foldl (storeEntry hash) s).sentEvents = s.sentEvents := by
  induction es generalizing s with
  | nil => exact ⟨rfl, rfl⟩
  | cons e rest ih =>
    rw [List.foldl_cons]
    obtain ⟨h1, h2⟩ := ih (storeEntry hash s e)
    obtain ⟨h3, h4⟩ := storeEntry_languageIndex hash s e
    exact ⟨h1.trans h3, h2.trans h4⟩

theorem LoadCall.apply_index (hash : String → K) (s : Localization K) (call : LoadCall) :
    (call.apply hash s).languageIndex_ = s.languageIndex_
      ∧ (call.apply hash s).sentEvents = s.sentEvents := by
  cases call with
  | multiple source =>
    show (LoadMultipleLanguageJSON hash s source).languageIndex_ = _
      ∧ (LoadMultipleLanguageJSON hash s source).sentEvents = _
    rw [LoadMultipleLanguageJSON_eq_foldl]
    exact foldl_storeEntry_index hash _ s
  | single source language => exact LoadSingleLanguageJSON_index hash s source language

theorem LoadCall.apply_languages (hash : String → K) (s : Localization K) (call : LoadCall) :
    ∃ ext, (call.apply hash s).languages_ = s.languages_ ++ ext := by
  cases call with
  | multiple source =>
    show ∃ ext, (LoadMultipleLanguageJSON hash s source).languages_ = _
    rw [LoadMultipleLanguageJSON_eq_foldl, foldl_storeEntry_languages]
    exact ⟨_, rfl⟩
  | single source language =>
    show ∃ ext, (LoadSingleLanguageJSON hash s source language).languages_ = _
    rw [LoadSingleLanguageJSON_languages]
    split_ifs
    · exact ⟨_, rfl⟩
    · exact ⟨[], (List.append_nil _).symm⟩

theorem LoadCall.apply_index_valid (hash : String → K) (s : Localization K) (call : LoadCall)
    (h : (s.languages_ ≠ [] → s.languageIndex_ < s.languages_.length)
      ∧ (s.languages_ = [] → s.languageIndex_ = 0)) :
    ((call.apply hash s).languages_ ≠ [] →
        (call.apply hash s).languageIndex_ < (call.apply hash s).languages_.length)
      ∧ ((call.apply hash s).languages_ = [] → (call.apply hash s).languageIndex_ = 0) := by
  obtain ⟨ext, hext⟩ := LoadCall.apply_languages hash s call
  rw [(LoadCall.apply_index hash s call).1, hext]
  constructor
  · intro _
    rw [List.length_append]
    by_cases hold : s.languages_ = []
    · rw [h.2 hold]
      rw [hold] at hext ⊢
      cases ext with
      | nil => simp_all
      | cons a rest => simp
    · have := h.1 hold
      omega
  · intro hnil
    exact h.2 (List.append_eq_nil.mp hnil).1

theorem Reachable.indexValid (hash : String → K) (s : Localization K)
    (h : Reachable hash s) :
    (s.languages_ ≠ [] → s.languageIndex_ < s.languages_.length)
      ∧ (s.languages_ = [] → s.languageIndex_ = 0) := by
  induction h with
  | initial => exact ⟨fun h => absurd rfl h, fun _ => rfl⟩
  | reset _ _ => exact ⟨fun h => absurd rfl h, fun _ => rfl⟩
  | @setLanguage s index _ ih =>
    unfold SetLanguage
    split_ifs with h1 h2
    · exact ih
    · refine ⟨fun _ => Nat.not_le.mp h1, fun hnil => ?_⟩
      have hnil' : s.languages_ = [] := hnil
      rw [hnil'] at h1
      exact absurd (Nat.zero_le _) h1
    · exact ih
  | @setLanguageByName s language _ ih =>
    unfold SetLanguageByName
    dsimp only
    split_ifs with h1 h2
    · exact ih
    · have hle : s.languages_.indexOf language ≤ s.languages_.length := List.indexOf_le_length
      refine ⟨fun _ => Nat.lt_of_le_of_ne hle h1, fun hnil => ?_⟩
      have hnil' : s.languages_ = [] := hnil
      rw [hnil'] at h1
      exact absurd rfl h1
    · exact ih
  | @loadMultiple s source _ ih => exact LoadCall.apply_index_valid hash s (.multiple source) ih
  | @loadSingle s source language _ ih =>
    exact LoadCall.apply_index_valid hash s (.single source language) ih

theorem Find_getD_nil (strings : HashMap K (HashMap K String)) (k1 k2 : K) :
    HashMap.Find ((HashMap.Find strings k1).getD []) k2 = translationAt strings k1 k2 := by
  unfold translationAt
  cases HashMap.Find strings k1 <;> rfl

theorem foldl_storeEntry_keep (hash : String → K) (k1 k2 : K)
    (es : List (String × String × String))
    (hnone : ∀ e ∈ es, validEntry e = true → ¬ (hash e.1 = k1 ∧ hash e.2.1 = k2))
    (s : Localization K) :
    translationAt (es.foldl (storeEntry hash) s).strings_ k1 k2
      = translationAt s.strings_ k1 k2 := by
  induction es generalizing s with
  | nil => rfl
  | cons e rest ih =>
    rw [List.foldl_cons, ih (fun e' he' => hnone e' (List.mem_cons_of_mem _ he')),
      translationAt_storeEntry, if_neg]
    rintro ⟨h1, h2, h3, hk1, hk2⟩
    exact hnone e (List.mem_cons_self e rest) (by simp [validEntry, h1, h2, h3])
      ⟨hk1.symm, hk2.symm⟩

theorem single_fold_keep (hash : String → K) (k : K) (ms : List (String × JSONValue))
    (hnone : ∀ i ∈ ms, validMember i = true → hash i.1 ≠ k)
    (acc : HashMap K String × Bool) :
    HashMap.Find (ms.foldl (LoadSingleLanguageJSON.entry hash) acc).1 k
      = HashMap.Find acc.1 k := by
  induction ms generalizing acc with
  | nil => rfl
  | cons i rest ih =>
    rw [List.foldl_cons, ih (fun i' hi' => hnone i' (List.mem_cons_of_mem _ hi')),
      single_entry_eq]
    by_cases hv : validMember i = true
    · rw [if_pos hv, HashMap.Find_assign_subscript, if_neg]
      intro hk
      exact hnone i (List.mem_cons_self i rest) hv hk.symm
    · rw [if_neg hv]

theorem single_fold_origin (hash : String → K) (k : K) (text : String)
    (ms : List (String × JSONValue)) (acc : HashMap K String × Bool)
    (h : HashMap.Find (ms.foldl (LoadSingleLanguageJSON.entry hash) acc).1 k = some text) :
    HashMap.Find acc.1 k = some text ∨ (text ≠ "" ∧ ∃ id, id ≠ "" ∧ hash id = k) := by
  induction ms generalizing acc with
  | nil => exact Or.inl h
  | cons i rest ih =>
    rw [List.foldl_cons] at h
    rcases ih _ h with h' | h'
    · rw [single_entry_eq] at h'
      by_cases hv : validMember i = true
      · rw [if_pos hv, HashMap.Find_assign_subscript] at h'
        by_cases hk : k = hash i.1
        · rw [if_pos hk] at h'
          have hv' := hv
          simp only [validMember, Bool.and_eq_true, decide_eq_true_eq] at hv'
          right
          refine ⟨?_, i.1, hv'.1.1, hk.symm⟩
          rw [← Option.some.inj h']
          exact hv'.2
        · rw [if_neg hk] at h'
          exact Or.inl h'
      · rw [if_neg hv] at h'
        exact Or.inl h'
    · exact Or.inr h'

theorem LoadSingleLanguageJSON_origin (hash : String → K) (s : Localization K)
    (source : JSONValue) (language : String) (k1 k2 : K) (text : String)
    (h : translationAt (LoadSingleLanguageJSON hash s source language).strings_ k1 k2
      = some text) :
    translationAt s.strings_ k1 k2 = some text
      ∨ (k1 = hash language ∧ text ≠ "" ∧ ∃ id, id ≠ "" ∧ hash id = k2) := by
  rw [translationAt_LoadSingleLanguageJSON] at h
  by_cases hk : k1 = hash language
  · rw [if_pos hk] at h
    rcases single_fold_origin hash k2 text _ _ h with h' | h'
    · left
      rw [hk, ← Find_getD_nil]
      exact h'
    · exact Or.inr ⟨hk, h'⟩
  · rw [if_neg hk] at h
    exact Or.inl h

theorem storeEntry_origin (hash : String → K) (s : Localization K)
    (e : String × String × String) (k1 k2 : K) (text : String)
    (h : translationAt (storeEntry hash s e).strings_ k1 k2 = some text) :
    translationAt s.strings_ k1 k2 = some text
      ∨ (text ≠ "" ∧ ∃ language id,
          language ≠ "" ∧ id ≠ "" ∧ hash language = k1 ∧ hash id = k2) := by
  rw [translationAt_storeEntry] at h
  split_ifs at h with hc
  · right
    obtain ⟨h1, h2, h3, hk1, hk2⟩ := hc
    rw [← Option.some.inj h]
    exact ⟨h3, e.1, e.2.1, h1, h2, hk1.symm, hk2.symm⟩
  · exact Or.inl h

theorem foldl_storeEntry_origin (hash : String → K) (es : List (String × String × String))
    (s : Localization K) (k1 k2 : K) (text : String)
    (h : translationAt (es.foldl (storeEntry hash) s).strings_ k1 k2 = some text) :
    translationAt s.strings_ k1 k2 = some text
      ∨ (text ≠ "" ∧ ∃ language id,
          language ≠ "" ∧ id ≠ "" ∧ hash language = k1 ∧ hash id = k2) := by
  induction es generalizing s with
  | nil => exact Or.inl h
  | cons e rest ih =>
    rw [List.foldl_cons] at h
    rcases ih _ h with h' | h'
    · exact storeEntry_origin hash s e k1 k2 text h'
    · exact Or.inr h'

theorem foldl_storeEntry_no_empty_name (hash : String → K)
    (es : List (String × String × String)) (s : Localization K) (h : "" ∉ s.languages_) :
    "" ∉ (es.foldl (storeEntry hash) s).languages_ := by
  induction es generalizing s with
  | nil => exact h
  | cons e rest ih =>
    rw [List.foldl_cons]
    apply ih
    rw [storeEntry_languages]
    split_ifs with hc
    · intro hmem
      rcases List.mem_append.mp hmem with hin | hin
      · exact h hin
      · rw [List.mem_singleton] at hin
        have hv := hc.1
        simp only [validEntry, Bool.and_eq_true, decide_eq_true_eq] at hv
        exact hv.1.1 hin.symm
    · exact h

theorem LoadCall.apply_textsNonEmpty (hash : String → K) (s : Localization K)
    (call : LoadCall) (h : TextsNonEmpty s) : TextsNonEmpty (call.apply hash s) := by
  intro k1 k2 text hat
  cases call with
  | multiple source =>
    have hat' : translationAt (LoadMultipleLanguageJSON hash s source).strings_ k1 k2
        = some text := hat
    rw [LoadMultipleLanguageJSON_eq_foldl] at hat'
    rcases foldl_storeEntry_origin hash _ s k1 k2 text hat' with h' | h'
    · exact h k1 k2 text h'
    · exact h'.1
  | single source language =>
    rcases LoadSingleLanguageJSON_origin hash s source language k1 k2 text hat with h' | h'
    · exact h k1 k2 text h'
    · exact h'.2.1

theorem Reachable.textsNonEmpty (hash : String → K) (s : Localization K)
    (h : Reachable hash s) : TextsNonEmpty s := by
  induction h with
  | initial =>
    intro k1 k2 text hat
    simp [Localization.initial, translationAt, HashMap.Find] at hat
  | reset _ _ =>
    intro k1 k2 text hat
    simp [Reset, translationAt, HashMap.Find] at hat
  | setLanguage index _ ih =>
    unfold TextsNonEmpty
    rw [(SetLanguage_fields _ index).2]
    exact ih
  | setLanguageByName language _ ih =>
    unfold TextsNonEmpty
    rw [(SetLanguageByName_fields_all _ language).2]
    exact ih
  | @loadMultiple s source _ ih => exact LoadCall.apply_textsNonEmpty hash s (.multiple source) ih
  | @loadSingle s source language _ ih =>
    exact LoadCall.apply_textsNonEmpty hash s (.single source language) ih

theorem LoadJSONFile_entriesNamed (hash : String → K) (s : Localization K)
    (jsonFile : Option JSONValue) (language : String) (h : EntriesNamed hash s) :
    EntriesNamed hash (LoadJSONFile hash s jsonFile language) := by
  unfold LoadJSONFile
  cases jsonFile with
  | none => exact h
  | some root =>
    dsimp only
    by_cases hl : language = ""
    · rw [if_pos hl, LoadMultipleLanguageJSON_eq_foldl]
      refine ⟨foldl_storeEntry_no_empty_name hash _ s h.1, ?_⟩
      intro k1 k2 text hat
      rcases foldl_storeEntry_origin hash _ s k1 k2 text hat with h' | h'
      · exact h.2 k1 k2 text h'
      · exact h'
    · rw [if_neg hl]
      constructor
      · rw [LoadSingleLanguageJSON_languages]
        split_ifs
        · intro hmem
          rcases List.mem_append.mp hmem with hin | hin
          · exact h.1 hin
          · rw [List.mem_singleton] at hin
            exact hl hin.symm
        · exact h.1
      · intro k1 k2 text hat
        rcases LoadSingleLanguageJSON_origin hash s root language k1 k2 text hat with h' | h'
        · exact h.2 k1 k2 text h'
        · obtain ⟨hk, ht, id, hid, hk2⟩ := h'
          exact ⟨ht, language, id, hl, hid, hk.symm, hk2⟩

theorem ReachableViaFile.entriesNamed (hash : String → K) (s : Localization K)
    (h : ReachableViaFile hash s) : EntriesNamed hash s := by
  induction h with
  | initial =>
    refine ⟨List.not_mem_nil _, ?_⟩
    intro k1 k2 text hat
    simp [Localization.initial, translationAt, HashMap.Find] at hat
  | reset _ _ =>
    refine ⟨List.not_mem_nil _, ?_⟩
    intro k1 k2 text hat
    simp [Reset, translationAt, HashMap.Find] at hat
  | setLanguage index _ ih =>
    unfold EntriesNamed
    rw [(SetLanguage_fields _ index).1, (SetLanguage_fields _ index).2]
    exact ih
  | setLanguageByName language _ ih =>
    unfold EntriesNamed
    rw [(SetLanguageByName_fields_all _ language).1, (SetLanguageByName_fields_all _ language).2]
    exact ih
  | loadJSONFile jsonFile language _ ih =>
    exact LoadJSONFile_entriesNamed hash _ jsonFile language ih

theorem head?_map_fst_of_forall (l : List (String × String × String)) (language : String)
    (hne : l ≠ []) (hall : ∀ e ∈ l, e.1 = language) :
    (l.head?.map fun e => e.1) = some language := by
  cases l with
  | nil => exact absurd rfl hne
  | cons e rest =>
    rw [List.head?_cons, Option.map_some', hall e (List.mem_cons_self e rest)]

theorem LoadCall.apply_first_language (hash : String → K) (s : Localization K)
    (call : LoadCall) (hempty : s.languages_ = [])
    (hreg : (call.apply hash s).languages_ ≠ []) :
    ((call.entries.filter call.stores).head?.map fun e => e.1)
      = (call.apply hash s).languages_.head? := by
  cases call with
  | multiple source =>
    have hstores : LoadCall.stores (.multiple source) = validEntry := by
      funext e
      rfl
    show _ = (LoadMultipleLanguageJSON hash s source).languages_.head?
    have hall : ∀ l : List String, (l.filter fun a => decide (a ∉ ([] : List String))) = l := by
      intro l
      apply List.filter_eq_self.mpr
      intro a _
      simp
    rw [hstores, LoadMultipleLanguageJSON_eq_foldl, foldl_storeEntry_languages, hempty,
      List.nil_append, head?_firstOccurrences, hall, List.head?_map]
  | single source language =>
    have hlangs : (LoadSingleLanguageJSON hash s source language).languages_
        = if source.members.any validMember = true ∧ language ∉ s.languages_
          then s.languages_ ++ [language] else s.languages_ :=
      LoadSingleLanguageJSON_languages hash s source language
    have hreg' : (LoadSingleLanguageJSON hash s source language).languages_ ≠ [] := hreg
    show _ = (LoadSingleLanguageJSON hash s source language).languages_.head?
    rw [hlangs] at hreg' ⊢
    by_cases hany : source.members.any validMember = true ∧ language ∉ s.languages_
    · rw [if_pos hany, hempty, List.nil_append, List.head?_cons]
      obtain ⟨i, hi, hv⟩ := List.any_eq_true.mp hany.1
      simp only [validMember, Bool.and_eq_true, decide_eq_true_eq] at hv
      apply head?_map_fst_of_forall
      · apply List.ne_nil_of_mem (a := (language, i.1, i.2.GetString))
        rw [List.mem_filter]
        refine ⟨List.mem_map.mpr ⟨i, hi, rfl⟩, ?_⟩
        simp [LoadCall.stores, hv.1.1, hv.2]
      · intro e he
        obtain ⟨j, _, rfl⟩ := List.mem_map.mp (List.mem_filter.mp he).1
        rfl
    · rw [if_neg hany] at hreg'
      exact absurd hempty hreg'

theorem GetLanguageIndex_of_reachable (hash : String → K)
    (s : Localization K) (hreach : Reachable hash s) (name : String) :
    ((name = "" ∨ s.languages_ = [] ∨ name ∉ s.languages_) → GetLanguageIndex s name = -1)
      ∧ (name ≠ "" → name ∈ s.languages_ → s.languages_.length < 2147483648 →
          GetLanguageAt s (GetLanguageIndex s name) = some name
            ∧ ∀ i, IsInt i → GetLanguageAt s i = some name →
                i = GetLanguageIndex s name) := by
  constructor
  · intro h
    unfold GetLanguageIndex
    by_cases h1 : name = ""
    · rw [if_pos h1]
    by_cases h2 : s.languages_ = []
    · rw [if_neg h1, if_pos h2]
    rcases h with h | h | h
    · exact absurd h h1
    · exact absurd h h2
    · rw [if_neg h1, if_neg h2]
      dsimp only
      rw [if_neg (not_not.mpr (List.indexOf_eq_length.mpr h))]
  · intro hname hmem hfit
    have hlt : s.languages_.indexOf name < s.languages_.length :=
      List.indexOf_lt_length.mpr hmem
    have hidx : GetLanguageIndex s name = (s.languages_.indexOf name : Int) := by
      rw [GetLanguageIndex_of_mem s name hname hmem, toSigned_of_lt _ (by omega)]
    have hlen : toSigned s.languages_.length = (s.languages_.length : Int) :=
      toSigned_of_lt _ hfit
    constructor
    · rw [hidx]
      unfold GetLanguageAt
      rw [hlen, if_neg (by omega), toUnsigned_natCast _ (by omega)]
      exact List.getElem?_indexOf hmem
    · intro i hint hat
      unfold GetLanguageAt at hat
      rw [hlen] at hat
      unfold IsInt at hint
      by_cases hge : i ≥ (s.languages_.length : Int)
      · rw [if_pos hge] at hat
        exact absurd (Option.some.inj hat).symm hname
      · rw [if_neg hge] at hat
        obtain ⟨hbound, hget⟩ := List.getElem?_eq_some_iff.mp hat
        have hpos : 0 ≤ i := by
          by_contra hneg
          unfold toUnsigned at hbound
          omega
        have hcast : (toUnsigned i : Int) = i := by
          unfold toUnsigned
          omega
        have hindex := List.indexOf_getElem (Reachable.nodup hash s hreach) (toUnsigned i) hbound
        rw [hget] at hindex
        rw [hidx, hindex, hcast]

theorem LoadCall.apply_keeps_unstored (hash : String → K)
    (hinj : Function.Injective hash) (s : Localization K) (call : LoadCall)
    (language id : String)
    (hnone : ∀ e ∈ call.entries, call.stores e = true → ¬ (e.1 = language ∧ e.2.1 = id)) :
    translationAt (call.apply hash s).strings_ (hash language) (hash id)
      = translationAt s.strings_ (hash language) (hash id) := by
  cases call with
  | multiple source =>
    show translationAt (LoadMultipleLanguageJSON hash s source).strings_ _ _ = _
    rw [LoadMultipleLanguageJSON_eq_foldl]
    apply foldl_storeEntry_keep
    intro e he hv hk
    exact hnone e he hv ⟨hinj hk.1, hinj hk.2⟩
  | single source language' =>
    show translationAt (LoadSingleLanguageJSON hash s source language').strings_ _ _ = _
    rw [translationAt_LoadSingleLanguageJSON]
    by_cases hk : hash language = hash language'
    · rw [if_pos hk, single_fold_keep, Find_getD_nil, hk]
      intro i hi hv hki
      have hv' := hv
      simp only [validMember, Bool.and_eq_true, decide_eq_true_eq] at hv'
      apply hnone (language', i.1, i.2.GetString) (List.mem_map.mpr ⟨i, hi, rfl⟩)
      · simp [LoadCall.stores, hv'.1.1, hv'.2]
      · exact ⟨(hinj hk).symm, hinj hki⟩
    · rw [if_neg hk]

theorem ReachableViaFile.reachable (hash : String → K) (s : Localization K)
    (h : ReachableViaFile hash s) : Reachable hash s := by
  induction h with
  | initial => exact Reachable.initial
  | reset _ ih => exact Reachable.reset ih
  | setLanguage index _ ih => exact Reachable.setLanguage index ih
  | setLanguageByName language _ ih => exact Reachable.setLanguageByName language ih
  | loadJSONFile jsonFile language _ ih =>
    unfold LoadJSONFile
    cases jsonFile with
    | none => exact ih
    | some root =>
      dsimp only
      split_ifs
      · exact Reachable.loadMultiple root ih
      · exact Reachable.loadSingle root language ih

end OperationLemmas

/-! ## The claims -/

section Claims

/-- C1: with a collision-free `StringHash`, for every starting state and every
load of either shape, an entry (language, id, text) of the document with
non-empty language, id and text that is the last entry of the document for its
(language, id) pair is what `Get(id)` returns after the load followed by
`SetLanguage(language)`; the starting state and the other entries are
arbitrary. -/
theorem load_then_Get {K : Type} [DecidableEq K] (hash : String → K)
    (hinj : Function.Injective hash)
    (s : Localization K) (call : LoadCall) (pre post : List (String × String × String))
    (language id text : String)
    (hdoc : call.entries = pre ++ (language, id, text) :: post)
    (hl : language ≠ "") (hi : id ≠ "") (ht : text ≠ "")
    (hlast : ∀ e ∈ post, ¬ (e.1 = language ∧ e.2.1 = id)) :
    Get hash (SetLanguageByName (call.apply hash s) language) id = text := by
  cases call with
  | multiple source =>
    have hload : LoadCall.apply hash s (.multiple source)
        = post.foldl (storeEntry hash)
            (storeEntry hash (pre.foldl (storeEntry hash) s) (language, id, text)) := by
      show LoadMultipleLanguageJSON hash s source = _
      rw [LoadMultipleLanguageJSON_eq_foldl, hdoc, List.foldl_append, List.foldl_cons]
    rw [hload]
    obtain ⟨hmem, hat⟩ := foldl_storeEntry_last hash hinj language id text post hlast
      (storeEntry hash (pre.foldl (storeEntry hash) s) (language, id, text))
      (mem_languages_storeEntry_self hash _ (language, id, text) hl hi ht)
      (by rw [translationAt_storeEntry]; simp [hl, hi, ht])
    exact Get_SetLanguageByName hash _ language id text hmem hi hat
  | single source language' =>
    obtain ⟨l1, l2, hms, -, h2⟩ := List.map_eq_append_iff.mp hdoc
    obtain ⟨m, l2', rfl, hm, hpost⟩ := List.map_eq_cons_iff.mp h2
    have hlang : language' = language := congrArg (fun e => e.1) hm
    have hmid : m.1 = id := congrArg (fun e => e.2.1) hm
    have hmtext : m.2.GetString = text := congrArg (fun e => e.2.2) hm
    subst hlang
    have hvalid : validMember m = true := by
      have h3 : m.2.GetString ≠ "" := by rw [hmtext]; exact ht
      simp [validMember, hmid, hi, h3, JSONValue.IsString_of_GetString m.2 h3]
    have hlast' : ∀ i ∈ l2', i.1 ≠ id := by
      intro i hi' hid
      apply hlast (language', i.1, i.2.GetString)
      · rw [← hpost]
        exact List.mem_map.mpr ⟨i, hi', rfl⟩
      · exact ⟨rfl, hid⟩
    apply Get_SetLanguageByName hash _ language' id text _ hi
    · show translationAt (LoadSingleLanguageJSON hash s source language').strings_ _ _ = _
      rw [translationAt_LoadSingleLanguageJSON, if_pos rfl, hms, List.foldl_append,
        List.foldl_cons]
      apply single_fold_last hash hinj id text l2' hlast'
      rw [single_entry_eq, if_pos hvalid, HashMap.Find_assign_subscript, hmid, if_pos rfl,
        hmtext]
    · show language' ∈ (LoadSingleLanguageJSON hash s source language').languages_
      rw [LoadSingleLanguageJSON_languages]
      have hany : source.members.any validMember = true := by
        rw [hms]
        simp [hvalid]
      by_cases hmem : language' ∈ s.languages_
      · simp [hmem]
      · simp [hany, hmem]

/-- C1 at the documents of the specification: after loading
`{"hello": {"en": "Hello", "fr": "Bonjour"}}` the id "hello" reads "Bonjour"
under "fr" and "Hello" under "en", and after loading `{"hello": "Hi"}` and then
`{"hello": "Hey"}` for "en" it reads "Hey". -/
theorem load_then_Get_witness :
    Function.Injective (id : String → String)
      ∧ Get id (SetLanguageByName
          (LoadMultipleLanguageJSON id (Localization.initial String) helloDocument) "fr")
          "hello" = "Bonjour"
      ∧ Get id (SetLanguageByName
          (LoadMultipleLanguageJSON id (Localization.initial String) helloDocument) "en")
          "hello" = "Hello"
      ∧ Get id (SetLanguageByName
          (LoadSingleLanguageJSON id
            (LoadSingleLanguageJSON id (Localization.initial String)
              (.object [("hello", .string "Hi")]) "en")
            (.object [("hello", .string "Hey")]) "en") "en")
          "hello" = "Hey" :=
  ⟨Function.injective_id,
    load_then_Get id Function.injective_id (Localization.initial String)
      (.multiple helloDocument) [("en", "hello", "Hello")] [] "fr" "hello" "Bonjour"
      (by decide) (by decide) (by decide) (by decide) (by simp),
    load_then_Get id Function.injective_id (Localization.initial String)
      (.multiple helloDocument) [] [("fr", "hello", "Bonjour")] "en" "hello" "Hello"
      (by decide) (by decide) (by decide) (by decide) (by decide),
    load_then_Get id Function.injective_id
      (LoadSingleLanguageJSON id (Localization.initial String)
        (.object [("hello", .string "Hi")]) "en")
      (.single (.object [("hello", .string "Hey")]) "en") [] [] "en" "hello" "Hey"
      (by decide) (by decide) (by decide) (by decide) (by simp)⟩

/-- C2: for every state and every non-empty id, `Get(id)` returns id itself when
there is no active language (the active index is not below the number of
languages), and when the active language exists but the table has no inner map
under it or the inner map has no entry under the id. -/
theorem Get_fallback {K : Type} [DecidableEq K] (hash : String → K) (s : Localization K)
    (id : String) (hid : id ≠ "")
    (h : s.languageIndex_ ≥ s.languages_.length
      ∨ (s.languageIndex_ < s.languages_.length
          ∧ (HashMap.Find s.strings_ (hash (GetLanguage s)) = none
              ∨ ∃ translations,
                  HashMap.Find s.strings_ (hash (GetLanguage s)) = some translations
                    ∧ HashMap.Find translations (hash id) = none))) :
    Get hash s id = id := by
  unfold Get
  rw [if_neg hid]
  rcases h with h | ⟨hlt, h⟩
  · rw [if_pos h]
  · have hcur : GetLanguage s = s.languages_.getD s.languageIndex_ "" := by
      unfold GetLanguage
      rw [if_neg (Nat.not_le.mpr hlt)]
    rw [if_neg (Nat.not_le.mpr hlt), ← hcur]
    rcases h with h | ⟨translations, h, h'⟩
    · rw [h]
    · rw [h]
      simp only [h']

/-- C2 at concrete states: with no language loaded "hello" reads "hello"; with
`{"hello": {"en": "Hello", "fr": "Bonjour"}}` loaded and "en" active, the
unknown id "bye" reads "bye". -/
theorem Get_fallback_witness :
    Get id (Localization.initial String) "hello" = "hello"
      ∧ Get id (LoadMultipleLanguageJSON id (Localization.initial String) helloDocument) "bye"
          = "bye" :=
  ⟨Get_fallback id (Localization.initial String) "hello" (by decide) (Or.inl (by decide)),
    Get_fallback id (LoadMultipleLanguageJSON id (Localization.initial String) helloDocument)
      "bye" (by decide)
      (Or.inr ⟨by decide, Or.inr ⟨[("hello", "Hello")], by decide, by decide⟩⟩)⟩

/-- C4: `SetLanguage(index)` compares the index as an unsigned value. An index
that is not below the language count changes nothing and sends no event; an
index equal to the active index changes nothing and sends no event; any other
index below the language count becomes the active index, exactly one event is
sent, and the language list and the table stay as they are. A non-negative
`int` converts to itself, and a negative `int` is out of range of every
language list of at most 2^31 names. -/
theorem SetLanguage_cases {K : Type} (s : Localization K) (index : Int) :
    (toUnsigned index ≥ s.languages_.length → SetLanguage s index = s)
      ∧ (toUnsigned index = s.languageIndex_ → SetLanguage s index = s)
      ∧ (toUnsigned index < s.languages_.length → toUnsigned index ≠ s.languageIndex_ →
          SetLanguage s index
            = { s with languageIndex_ := toUnsigned index, sentEvents := s.sentEvents + 1 })
      ∧ (IsInt index → 0 ≤ index → (toUnsigned index : Int) = index)
      ∧ (IsInt index → index < 0 → s.languages_.length ≤ 2147483648 →
          toUnsigned index ≥ s.languages_.length ∧ SetLanguage s index = s) := by
  refine ⟨?_, ?_, ?_, ?_, ?_⟩
  · intro h
    unfold SetLanguage
    rw [if_pos h]
  · intro h
    unfold SetLanguage
    split_ifs <;> first | rfl | contradiction
  · intro h1 h2
    unfold SetLanguage
    rw [if_neg (Nat.not_le.mpr h1), if_pos h2]
  · intro hint h0
    unfold IsInt at hint
    unfold toUnsigned
    omega
  · intro hint hneg hlen
    unfold IsInt at hint
    have hge : toUnsigned index ≥ s.languages_.length := by
      unfold toUnsigned
      omega
    refine ⟨hge, ?_⟩
    unfold SetLanguage
    rw [if_pos hge]

/-- C4 at a concrete state: with the languages "en" and "fr" loaded and "en"
active, index 1 becomes active with one event, index 0 and the out-of-range
indexes 2 and -1 change nothing. -/
theorem SetLanguage_cases_witness :
    SetLanguage (LoadMultipleLanguageJSON id (Localization.initial String) helloDocument) 1
        = { LoadMultipleLanguageJSON id (Localization.initial String) helloDocument with
            languageIndex_ := 1, sentEvents := 1 }
      ∧ SetLanguage (LoadMultipleLanguageJSON id (Localization.initial String) helloDocument) 0
        = LoadMultipleLanguageJSON id (Localization.initial String) helloDocument
      ∧ SetLanguage (LoadMultipleLanguageJSON id (Localization.initial String) helloDocument) 2
        = LoadMultipleLanguageJSON id (Localization.initial String) helloDocument
      ∧ SetLanguage (LoadMultipleLanguageJSON id (Localization.initial String) helloDocument)
          (-1)
        = LoadMultipleLanguageJSON id (Localization.initial String) helloDocument :=
  ⟨(SetLanguage_cases _ 1).2.2.1 (by decide) (by decide),
    (SetLanguage_cases _ 0).2.1 (by decide),
    (SetLanguage_cases _ 2).1 (by decide),
    ((SetLanguage_cases _ (-1)).2.2.2.2 (by decide) (by decide) (by decide)).2⟩

/-- C6: for every state, after `Reset()` the language list is empty, the
language count is 0, the active index is 0, the table is empty, and `Get(id)`
returns id for every id. -/
theorem Reset_spec {K : Type} [DecidableEq K] (hash : String → K) (s : Localization K) :
    (Reset s).languages_ = [] ∧ GetNumLanguages (Reset s) = 0
      ∧ (Reset s).languageIndex_ = 0 ∧ (Reset s).strings_ = []
      ∧ ∀ id, Get hash (Reset s) id = id := by
  refine ⟨rfl, rfl, rfl, rfl, ?_⟩
  intro id
  unfold Get
  by_cases hid : id = ""
  · rw [if_pos hid, hid]
  · rw [if_neg hid, if_pos]
    exact Nat.le_refl 0

/-- C8: for every state, every language and every single-language document,
`LoadSingleLanguageJSON` appends the language to the language list when the
language was not in the list and the document has a member with a non-empty id
and a non-empty string value, and leaves the list as it was otherwise. -/
theorem LoadSingleLanguageJSON_registers {K : Type} [DecidableEq K] (hash : String → K)
    (s : Localization K)
    (source : JSONValue) (language : String) :
    (language ∉ s.languages_ ∧ (∃ i ∈ source.members, validMember i = true) →
        (LoadSingleLanguageJSON hash s source language).languages_
          = s.languages_ ++ [language])
      ∧ (¬ (language ∉ s.languages_ ∧ (∃ i ∈ source.members, validMember i = true)) →
        (LoadSingleLanguageJSON hash s source language).languages_ = s.languages_) := by
  rw [LoadSingleLanguageJSON_languages]
  have hany : source.members.any validMember = true
      ↔ ∃ i ∈ source.members, validMember i = true := List.any_eq_true
  constructor
  · rintro ⟨hnot, hex⟩
    rw [if_pos ⟨hany.mpr hex, hnot⟩]
  · intro h
    rw [if_neg]
    rintro ⟨h1, h2⟩
    exact h ⟨h2, hany.mp h1⟩

/-- C8 at concrete documents: `{"hello": "Hi"}` registers "en" in a fresh
state, and the all-rejected `{"hello": "", "": "x", "n": 1}` does not. -/
theorem LoadSingleLanguageJSON_registers_witness :
    (LoadSingleLanguageJSON id (Localization.initial String)
        (.object [("hello", .string "Hi")]) "en").languages_ = [] ++ ["en"]
      ∧ (LoadSingleLanguageJSON id (Localization.initial String)
          (.object [("hello", .string ""), ("", .string "x"), ("n", .number 1)])
          "en").languages_ = [] :=
  ⟨(LoadSingleLanguageJSON_registers id (Localization.initial String)
      (.object [("hello", .string "Hi")]) "en").1
      ⟨by decide, ("hello", .string "Hi"), by simp [JSONValue.members], by decide⟩,
    (LoadSingleLanguageJSON_registers id (Localization.initial String)
      (.object [("hello", .string ""), ("", .string "x"), ("n", .number 1)]) "en").2
      (by simp [JSONValue.members, validMember, JSONValue.IsString, JSONValue.GetString])⟩

/-- C10: for every state and every language, `LoadSingleLanguageJSON` of the
empty object returns the state as it was: table, language list, active index
and the number of events sent. -/
theorem LoadSingleLanguageJSON_empty_object {K : Type} [DecidableEq K] (hash : String → K)
    (s : Localization K)
    (language : String) :
    LoadSingleLanguageJSON hash s (.object []) language = s := rfl

/-- C3: in every state that `Reset`, the two `SetLanguage` overloads and the
loads that `LoadJSONFile` dispatches produce from the initial state,
`GetLanguageIndex(name)` is -1 when name is empty, when no language is loaded,
or when name is not in the language list, and when name is in the list (of
fewer than 2^31 names, the range of the `int` result) it is the unique `int`
index i with `GetLanguage(i) == name`. -/
theorem GetLanguageIndex_spec {K : Type} [DecidableEq K] (hash : String → K)
    (s : Localization K) (hreach : ReachableViaFile hash s) (name : String) :
    ((name = "" ∨ s.languages_ = [] ∨ name ∉ s.languages_) → GetLanguageIndex s name = -1)
      ∧ (name ∈ s.languages_ → s.languages_.length < 2147483648 →
          GetLanguageAt s (GetLanguageIndex s name) = some name
            ∧ ∀ i, IsInt i → GetLanguageAt s i = some name →
                i = GetLanguageIndex s name) := by
  have hspec := GetLanguageIndex_of_reachable hash s
    (ReachableViaFile.reachable hash s hreach) name
  refine ⟨hspec.1, ?_⟩
  intro hmem hfit
  have hname : name ≠ "" := by
    intro hempty
    exact (ReachableViaFile.entriesNamed hash s hreach).1 (hempty ▸ hmem)
  exact hspec.2 hname hmem hfit

/-- C3 at a concrete state: after `LoadJSONFile` of
`{"hello": {"en": "Hello", "fr": "Bonjour"}}` with an empty language argument,
`GetLanguage(GetLanguageIndex("fr"))` is "fr" and no other `int` index reads
"fr". -/
theorem GetLanguageIndex_spec_witness :
    GetLanguageAt (LoadJSONFile id (Localization.initial String) (some helloDocument) "")
        (GetLanguageIndex
          (LoadJSONFile id (Localization.initial String) (some helloDocument) "") "fr")
        = some "fr"
      ∧ ∀ i, IsInt i →
          GetLanguageAt (LoadJSONFile id (Localization.initial String) (some helloDocument) "") i
            = some "fr" →
          i = GetLanguageIndex
            (LoadJSONFile id (Localization.initial String) (some helloDocument) "") "fr" :=
  (GetLanguageIndex_spec id _
    (ReachableViaFile.loadJSONFile (some helloDocument) "" ReachableViaFile.initial)
    "fr").2 (by decide) (by decide)

/-- C5: in every state that `Reset`, the two `SetLanguage` overloads and the
loads that `LoadJSONFile` dispatches produce from the initial state (with a
language count that fits an `unsigned`), for every name `SetLanguage(name)`
gives the same state and the same number of events as doing nothing when name
is not in the language list and `SetLanguage(GetLanguageIndex(name))`
otherwise. -/
theorem SetLanguageByName_refines {K : Type} [DecidableEq K] (hash : String → K)
    (s : Localization K) (hreach : ReachableViaFile hash s) (name : String)
    (hfit : s.languages_.length ≤ 4294967296) :
    SetLanguageByName s name = SetLanguageByNameSpec s name :=
  SetLanguageByName_eq_spec s name
    (Or.inr (ReachableViaFile.entriesNamed hash s hreach).1) hfit

/-- C5 at a concrete state: after `LoadJSONFile` of
`{"hello": {"en": "Hello", "fr": "Bonjour"}}`, `SetLanguage("fr")` and
`SetLanguage(GetLanguageIndex("fr"))` agree (index 1, one event), and
`SetLanguage("")` and `SetLanguage("de")` do nothing, as the description has
it. -/
theorem SetLanguageByName_refines_witness :
    SetLanguageByName (LoadJSONFile id (Localization.initial String) (some helloDocument) "")
        "fr"
        = SetLanguageByNameSpec
            (LoadJSONFile id (Localization.initial String) (some helloDocument) "") "fr"
      ∧ (SetLanguageByName
          (LoadJSONFile id (Localization.initial String) (some helloDocument) "")
          "fr").languageIndex_ = 1
      ∧ SetLanguageByName (LoadJSONFile id (Localization.initial String) (some helloDocument) "")
        ""
        = SetLanguageByNameSpec
            (LoadJSONFile id (Localization.initial String) (some helloDocument) "") ""
      ∧ SetLanguageByName (LoadJSONFile id (Localization.initial String) (some helloDocument) "")
        "de"
        = SetLanguageByNameSpec
            (LoadJSONFile id (Localization.initial String) (some helloDocument) "") "de" :=
  ⟨SetLanguageByName_refines id _
      (ReachableViaFile.loadJSONFile (some helloDocument) "" ReachableViaFile.initial) "fr"
      (by decide),
    by decide,
    SetLanguageByName_refines id _
      (ReachableViaFile.loadJSONFile (some helloDocument) "" ReachableViaFile.initial) ""
      (by decide),
    SetLanguageByName_refines id _
      (ReachableViaFile.loadJSONFile (some helloDocument) "" ReachableViaFile.initial) "de"
      (by decide)⟩

/-- C7 fails as stated: after the single-language load of `{"greeting": 42}`
for "en" the table has an (empty) inner map under the key of "en" and the
language list does not contain "en". -/
theorem table_keys_counterexample :
    Reachable id rejectedState
      ∧ HashMap.Find rejectedState.strings_ (id "en") = some []
      ∧ "en" ∉ rejectedState.languages_ :=
  ⟨Reachable.loadSingle _ _ Reachable.initial, by decide, by decide⟩

/-- C7, amended: in every reachable state every name of the language list is a
key of the table with a non-empty inner map, and every key of the table with a
non-empty inner map is the key of a name of the language list. -/
theorem table_keys_match_languages {K : Type} [DecidableEq K] (hash : String → K)
    (s : Localization K) (hreach : Reachable hash s) :
    (∀ name ∈ s.languages_,
        ∃ translations, HashMap.Find s.strings_ (hash name) = some translations
          ∧ translations ≠ [])
      ∧ (∀ k translations, HashMap.Find s.strings_ k = some translations →
          translations ≠ [] → ∃ name ∈ s.languages_, hash name = k) :=
  Reachable.tableMatches hash s hreach

/-- C7, amended, at a concrete state: after loading
`{"hello": {"en": "Hello", "fr": "Bonjour"}}` the listed languages and the keys
with a non-empty inner map are the same. -/
theorem table_keys_match_languages_witness :
    (∀ name ∈ helloState.languages_,
        ∃ translations, HashMap.Find helloState.strings_ (id name) = some translations
          ∧ translations ≠ [])
      ∧ (∀ k translations, HashMap.Find helloState.strings_ k = some translations →
          translations ≠ [] → ∃ name ∈ helloState.languages_, id name = k) :=
  table_keys_match_languages id helloState (Reachable.loadMultiple helloDocument Reachable.initial)

/-- C11 fails on the code: with the two languages "en" and "fr" loaded,
`GetLanguage(-1)` passes the signed test `index >= (int)languages_.Size()` and
reads `languages_[4294967295]`, outside the language list, where the claim has
the empty string; the indexes 2 and 1 behave as claimed. -/
theorem GetLanguageAt_negative_index :
    helloState.languages_ = ["en", "fr"]
      ∧ GetLanguageAt helloState (-1) = none
      ∧ toUnsigned (-1) = 4294967295
      ∧ GetLanguageAt helloState 2 = some ""
      ∧ GetLanguageAt helloState 1 = some "fr" :=
  ⟨by decide, by decide, by decide, by decide, by decide⟩

/-- C12: in every state reachable from the initial state by `Reset`, the two
`SetLanguage` overloads and the two loaders, the language list has no duplicate
names. -/
theorem languages_nodup {K : Type} [DecidableEq K] (hash : String → K) (s : Localization K)
    (hreach : Reachable hash s) : s.languages_.Nodup :=
  Reachable.nodup hash s hreach

/-- C12 at a concrete state: loading `{"hello": "Hi"}` for "en", then
`{"hello": {"en": "Hello", "fr": "Bonjour"}}`, gives a language list without
duplicates. -/
theorem languages_nodup_witness :
    (LoadMultipleLanguageJSON id
      (LoadSingleLanguageJSON id (Localization.initial String)
        (.object [("hello", .string "Hi")]) "en") helloDocument).languages_.Nodup :=
  languages_nodup id _ (Reachable.loadMultiple _ (Reachable.loadSingle _ _ Reachable.initial))

/-- C15: for every state, `Get("")` returns the empty string. -/
theorem Get_empty_id {K : Type} [DecidableEq K] (hash : String → K) (s : Localization K) :
    Get hash s "" = "" := by
  unfold Get
  rw [if_pos rfl]

/-- C13: in every state reachable from the initial state by `Reset`, the two
`SetLanguage` overloads and the two loaders, the active index is a position of
the language list when the list is non-empty, and is 0 when the list is
empty. -/
theorem languageIndex_valid {K : Type} [DecidableEq K] (hash : String → K)
    (s : Localization K) (hreach : Reachable hash s) :
    (s.languages_ ≠ [] → s.languageIndex_ < s.languages_.length)
      ∧ (s.languages_ = [] → s.languageIndex_ = 0) :=
  Reachable.indexValid hash s hreach

/-- C13 at a concrete state: after loading
`{"hello": {"en": "Hello", "fr": "Bonjour"}}` and `SetLanguage("fr")` the active
index is below the language count. -/
theorem languageIndex_valid_witness :
    ((SetLanguageByName helloState "fr").languages_ ≠ [] →
        (SetLanguageByName helloState "fr").languageIndex_
          < (SetLanguageByName helloState "fr").languages_.length)
      ∧ ((SetLanguageByName helloState "fr").languages_ = [] →
        (SetLanguageByName helloState "fr").languageIndex_ = 0) :=
  languageIndex_valid id (SetLanguageByName helloState "fr")
    (Reachable.setLanguageByName "fr" (Reachable.loadMultiple helloDocument Reachable.initial))

/-- C17: for every state and every multi-language document, the language list
after `LoadMultipleLanguageJSON` is the old list followed by the languages of
the valid entries of the document (non-empty id whose value is an object,
non-empty language name, non-empty string value) that are not in the old list,
each once, in the order of their first valid entry. -/
theorem LoadMultipleLanguageJSON_appends {K : Type} [DecidableEq K] (hash : String → K)
    (s : Localization K) (source : JSONValue) :
    (LoadMultipleLanguageJSON hash s source).languages_
        = s.languages_ ++ firstOccurrences
            ((((LoadCall.multiple source).entries.filter validEntry).map fun e => e.1).filter
              fun l => decide (l ∉ s.languages_))
      ∧ (firstOccurrences
            ((((LoadCall.multiple source).entries.filter validEntry).map fun e => e.1).filter
              fun l => decide (l ∉ s.languages_))).Nodup
      ∧ ∀ l, l ∈ firstOccurrences
            ((((LoadCall.multiple source).entries.filter validEntry).map fun e => e.1).filter
              fun l => decide (l ∉ s.languages_))
          ↔ l ∉ s.languages_
            ∧ ∃ e ∈ (LoadCall.multiple source).entries, validEntry e = true ∧ e.1 = l := by
  refine ⟨?_, nodup_firstOccurrences _, ?_⟩
  · rw [LoadMultipleLanguageJSON_eq_foldl, foldl_storeEntry_languages]
  · intro l
    rw [mem_firstOccurrences, List.mem_filter, List.mem_map]
    constructor
    · rintro ⟨⟨e, he, rfl⟩, hnot⟩
      exact ⟨by simpa using hnot, e, (List.mem_filter.mp he).1, (List.mem_filter.mp he).2, rfl⟩
    · rintro ⟨hnot, e, he, hv, rfl⟩
      exact ⟨⟨e, List.mem_filter.mpr ⟨he, hv⟩, rfl⟩, by simpa using hnot⟩

/-- C17 at a concrete load: with "en" and "fr" loaded, the document
`{"x": {"it": "a", "en": "b", "de": "c"}, "y": {"de": "d", "": "f", "es": ""}}`
appends "it" and "de", in this order, and nothing else. -/
theorem LoadMultipleLanguageJSON_appends_witness :
    (LoadMultipleLanguageJSON id helloState
      (.object [("x", .object [("it", .string "a"), ("en", .string "b"), ("de", .string "c")]),
        ("y", .object [("de", .string "d"), ("", .string "f"), ("es", .string "")])])).languages_
      = ["en", "fr"] ++ ["it", "de"] :=
  (LoadMultipleLanguageJSON_appends id helloState
    (.object [("x", .object [("it", .string "a"), ("en", .string "b"), ("de", .string "c")]),
      ("y", .object [("de", .string "d"), ("", .string "f"), ("es", .string "")])])).1.trans
    (by decide)

/-- C18: for every state and every load of either shape, the old language list
is an initial segment of the new one, `GetLanguageIndex` of every name of the
old list is unchanged, the active index is unchanged and no event is sent. -/
theorem load_keeps_indexes {K : Type} [DecidableEq K] (hash : String → K)
    (s : Localization K) (call : LoadCall) :
    (∃ ext, (call.apply hash s).languages_ = s.languages_ ++ ext)
      ∧ (∀ name ∈ s.languages_,
          GetLanguageIndex (call.apply hash s) name = GetLanguageIndex s name)
      ∧ (call.apply hash s).languageIndex_ = s.languageIndex_
      ∧ (call.apply hash s).sentEvents = s.sentEvents := by
  obtain ⟨ext, hext⟩ := LoadCall.apply_languages hash s call
  refine ⟨⟨ext, hext⟩, ?_, (LoadCall.apply_index hash s call).1,
    (LoadCall.apply_index hash s call).2⟩
  intro name hmem
  by_cases hname : name = ""
  · unfold GetLanguageIndex
    rw [if_pos hname, if_pos hname]
  · have hmem' : name ∈ (call.apply hash s).languages_ := by
      rw [hext]
      exact List.mem_append_left _ hmem
    rw [GetLanguageIndex_of_mem _ name hname hmem', GetLanguageIndex_of_mem s name hname hmem,
      hext, List.indexOf_append_of_mem hmem]

/-- C18 at a concrete load: loading `{"bye": {"de": "Servus", "en": "Bye"}}`
after `{"hello": {"en": "Hello", "fr": "Bonjour"}}` keeps "en" at index 0 and
"fr" at index 1 and appends "de". -/
theorem load_keeps_indexes_witness :
    (LoadMultipleLanguageJSON id helloState
        (.object [("bye", .object [("de", .string "Servus"), ("en", .string "Bye")])])).languages_
        = ["en", "fr", "de"]
      ∧ ∀ name ∈ helloState.languages_,
          GetLanguageIndex (LoadMultipleLanguageJSON id helloState
            (.object [("bye", .object [("de", .string "Servus"), ("en", .string "Bye")])])) name
            = GetLanguageIndex helloState name :=
  ⟨by decide,
    (load_keeps_indexes id helloState
      (.multiple
        (.object [("bye", .object [("de", .string "Servus"), ("en", .string "Bye")])]))).2.1⟩

/-- C14: in every state that `Reset`, the two `SetLanguage` overloads and
`LoadJSONFile` (multi-language loader for an empty language argument,
single-language loader otherwise) produce from the initial state, the language
list has no empty name and every text stored in the table is non-empty and
stored under the keys of a non-empty language name and of a non-empty id; with
a collision-free `StringHash` no text is stored under the key of the empty
string. -/
theorem stored_entries_nonempty {K : Type} [DecidableEq K] (hash : String → K)
    (s : Localization K) (hreach : ReachableViaFile hash s) :
    "" ∉ s.languages_
      ∧ (∀ k1 k2 text, translationAt s.strings_ k1 k2 = some text →
          text ≠ "" ∧ ∃ language id,
            language ≠ "" ∧ id ≠ "" ∧ hash language = k1 ∧ hash id = k2)
      ∧ (Function.Injective hash → ∀ k1 k2 text,
          translationAt s.strings_ k1 k2 = some text → k1 ≠ hash "" ∧ k2 ≠ hash "") := by
  obtain ⟨hlist, htable⟩ := ReachableViaFile.entriesNamed hash s hreach
  refine ⟨hlist, htable, ?_⟩
  intro hinj k1 k2 text hat
  obtain ⟨-, language, id, hl, hi, hk1, hk2⟩ := htable k1 k2 text hat
  constructor
  · intro hk
    exact hl (hinj (hk1.trans hk))
  · intro hk
    exact hi (hinj (hk2.trans hk))

/-- C14 at a concrete state: after `LoadJSONFile` of
`{"hello": {"en": "Hello", "fr": "Bonjour"}}` with an empty language argument
and of `{"": "x", "bye": "", "hello": "Hi"}` for "en", no empty name, id or
text is stored. -/
theorem stored_entries_nonempty_witness :
    "" ∉ (LoadJSONFile id
        (LoadJSONFile id (Localization.initial String) (some helloDocument) "")
        (some (.object [("", .string "x"), ("bye", .string ""), ("hello", .string "Hi")]))
        "en").languages_
      ∧ ∀ k1 k2 text,
          translationAt (LoadJSONFile id
            (LoadJSONFile id (Localization.initial String) (some helloDocument) "")
            (some (.object [("", .string "x"), ("bye", .string ""), ("hello", .string "Hi")]))
            "en").strings_ k1 k2 = some text →
          text ≠ "" ∧ ∃ language id',
            language ≠ "" ∧ id' ≠ "" ∧ id language = k1 ∧ id id' = k2 :=
  ⟨(stored_entries_nonempty id _
      (ReachableViaFile.loadJSONFile _ "en"
        (ReachableViaFile.loadJSONFile (some helloDocument) "" ReachableViaFile.initial))).1,
    (stored_entries_nonempty id _
      (ReachableViaFile.loadJSONFile _ "en"
        (ReachableViaFile.loadJSONFile (some helloDocument) "" ReachableViaFile.initial))).2.1⟩

/-- C16: with a collision-free `StringHash`, for every state, every load that
`LoadJSONFile` dispatches (multi-language, or single-language with a non-empty
language) and every (language, id) pair for which the document has no valid
entry (non-empty id, non-empty language, non-empty string value), the text
stored for the pair is the same after the load as before it: present with the
same text, or absent in both. -/
theorem load_additive {K : Type} [DecidableEq K] (hash : String → K)
    (hinj : Function.Injective hash) (s : Localization K) (call : LoadCall)
    (hcall : call.dispatched) (language id : String)
    (hnone : ∀ e ∈ call.entries, validEntry e = true → ¬ (e.1 = language ∧ e.2.1 = id)) :
    translationAt (call.apply hash s).strings_ (hash language) (hash id)
      = translationAt s.strings_ (hash language) (hash id) := by
  apply LoadCall.apply_keeps_unstored hash hinj s call language id
  intro e he hstores
  apply hnone e he
  cases call with
  | multiple source => exact hstores
  | single source language' =>
    have hl : language' ≠ "" := hcall
    obtain ⟨i, _, rfl⟩ := List.mem_map.mp he
    have hst : (decide (i.1 ≠ "") && decide (i.2.GetString ≠ "")) = true := hstores
    simp only [Bool.and_eq_true, decide_eq_true_eq] at hst
    simp [validEntry, hl, hst.1, hst.2]

/-- C16 at concrete loads: loading `{"hello": "Hey", "bye": ""}` for "en" after
`{"hello": {"en": "Hello", "fr": "Bonjour"}}` keeps the text of
("fr", "hello") and leaves ("en", "bye") without a text, and loading
`{"bye": {"en": "Bye", "fr": ""}}` keeps the text of ("en", "hello") and leaves
("fr", "bye") without a text. -/
theorem load_additive_witness :
    translationAt
        (LoadSingleLanguageJSON id helloState
          (.object [("hello", .string "Hey"), ("bye", .string "")]) "en").strings_ "fr" "hello"
        = some "Bonjour"
      ∧ translationAt
        (LoadSingleLanguageJSON id helloState
          (.object [("hello", .string "Hey"), ("bye", .string "")]) "en").strings_ "en" "bye"
        = none
      ∧ translationAt
        (LoadMultipleLanguageJSON id helloState
          (.object [("bye", .object [("en", .string "Bye"), ("fr", .string "")])])).strings_
          "en" "hello"
        = some "Hello"
      ∧ translationAt
        (LoadMultipleLanguageJSON id helloState
          (.object [("bye", .object [("en", .string "Bye"), ("fr", .string "")])])).strings_
          "fr" "bye"
        = none :=
  ⟨(load_additive id Function.injective_id helloState
      (.single (.object [("hello", .string "Hey"), ("bye", .string "")]) "en")
      (by decide : "en" ≠ "") "fr" "hello" (by decide)).trans (by decide),
    (load_additive id Function.injective_id helloState
      (.single (.object [("hello", .string "Hey"), ("bye", .string "")]) "en")
      (by decide : "en" ≠ "") "en" "bye" (by decide)).trans (by decide),
    (load_additive id Function.injective_id helloState
      (.multiple (.object [("bye", .object [("en", .string "Bye"), ("fr", .string "")])]))
      trivial "en" "hello" (by decide)).trans (by decide),
    (load_additive id Function.injective_id helloState
      (.multiple (.object [("bye", .object [("en", .string "Bye"), ("fr", .string "")])]))
      trivial "fr" "bye" (by decide)).trans (by decide)⟩

/-- C19: in every state reachable from the initial state by `Reset`, the two
`SetLanguage` overloads and the two loaders, `Get(id)` is non-empty for every
non-empty id, so that `Get(id)` is empty exactly when id is empty. -/
theorem Get_nonempty {K : Type} [DecidableEq K] (hash : String → K) (s : Localization K)
    (hreach : Reachable hash s) (id : String) :
    (id ≠ "" → Get hash s id ≠ "") ∧ (Get hash s id = "" ↔ id = "") := by
  have htexts := Reachable.textsNonEmpty hash s hreach
  have hne : id ≠ "" → Get hash s id ≠ "" := by
    intro hid
    rw [Get_eq, if_neg hid]
    split_ifs
    · exact hid
    · cases hat : translationAt s.strings_ (hash (s.languages_.getD s.languageIndex_ ""))
          (hash id) with
      | none => exact hid
      | some text => exact htexts _ _ text hat
  refine ⟨hne, ?_, ?_⟩
  · intro hget
    by_contra hid
    exact hne hid hget
  · intro hid
    rw [hid]
    unfold Get
    rw [if_pos rfl]

/-- C19 at a concrete state: with `{"hello": {"en": "Hello", "fr": "Bonjour"}}`
loaded, `Get("hello")` and `Get("bye")` are non-empty. -/
theorem Get_nonempty_witness :
    Get id helloState "hello" ≠ "" ∧ Get id helloState "bye" ≠ "" :=
  ⟨(Get_nonempty id helloState (Reachable.loadMultiple helloDocument Reachable.initial)
      "hello").1 (by decide),
    (Get_nonempty id helloState (Reachable.loadMultiple helloDocument Reachable.initial)
      "bye").1 (by decide)⟩

/-- C20: from a state with an empty language list and active index 0 (the
initial state and every state after `Reset`), a load of either shape that
registers a language sends no event and leaves the active index 0, so that the
current language `GetLanguage()` is `GetLanguage(0)`, the first name of the
list; this is the language of the first entry of the document that the loader
stores, and `Get` of a non-empty id returns the text stored for the id under
that language, or the id when there is none. The language list is taken to
have fewer than 2^31 names, the range of `int`. -/
theorem first_load_sets_current {K : Type} [DecidableEq K] (hash : String → K)
    (s : Localization K) (call : LoadCall)
    (hempty : s.languages_ = []) (hindex : s.languageIndex_ = 0)
    (hreg : (call.apply hash s).languages_ ≠ [])
    (hfit : (call.apply hash s).languages_.length < 2147483648) :
    (call.apply hash s).sentEvents = s.sentEvents
      ∧ (call.apply hash s).languageIndex_ = 0
      ∧ (call.apply hash s).languages_.head? = some (GetLanguage (call.apply hash s))
      ∧ GetLanguageAt (call.apply hash s) 0 = some (GetLanguage (call.apply hash s))
      ∧ ((call.entries.filter call.stores).head?.map fun e => e.1)
          = some (GetLanguage (call.apply hash s))
      ∧ ∀ id, id ≠ "" →
          Get hash (call.apply hash s) id
            = (translationAt (call.apply hash s).strings_
                (hash (GetLanguage (call.apply hash s))) (hash id)).getD id := by
  have hidx : (call.apply hash s).languageIndex_ = 0 :=
    (LoadCall.apply_index hash s call).1.trans hindex
  have hhead := head?_languages_of_index_zero (call.apply hash s) hidx hreg
  have hpos : 0 < (call.apply hash s).languages_.length := List.length_pos.mpr hreg
  refine ⟨(LoadCall.apply_index hash s call).2, hidx, hhead, ?_, ?_, ?_⟩
  · unfold GetLanguageAt
    rw [toSigned_of_lt _ hfit, if_neg (by omega)]
    have h0 : toUnsigned 0 = 0 := rfl
    rw [h0, ← List.head?_eq_getElem?]
    exact hhead
  · rw [LoadCall.apply_first_language hash s call hempty hreg]
    exact hhead
  · intro id hid
    have hcur : GetLanguage (call.apply hash s)
        = (call.apply hash s).languages_.getD (call.apply hash s).languageIndex_ "" := by
      unfold GetLanguage
      rw [if_neg (by omega)]
    rw [Get_eq, if_neg hid, if_neg (by omega), ← hcur]

/-- C20 at a concrete load: loading
`{"": {"de": "x"}, "hello": {"": "y", "fr": "Bonjour", "en": "Hello"}}` into a
fresh `Localization` makes "fr", the language of the first stored entry, the
current language, and `Get("hello")` is "Bonjour". -/
theorem first_load_sets_current_witness :
    GetLanguage (LoadMultipleLanguageJSON id (Localization.initial String)
        (.object [("", .object [("de", .string "x")]),
          ("hello", .object [("", .string "y"), ("fr", .string "Bonjour"),
            ("en", .string "Hello")])])) = "fr"
      ∧ GetLanguageAt (LoadMultipleLanguageJSON id (Localization.initial String)
        (.object [("", .object [("de", .string "x")]),
          ("hello", .object [("", .string "y"), ("fr", .string "Bonjour"),
            ("en", .string "Hello")])])) 0
        = some (GetLanguage (LoadMultipleLanguageJSON id (Localization.initial String)
          (.object [("", .object [("de", .string "x")]),
            ("hello", .object [("", .string "y"), ("fr", .string "Bonjour"),
              ("en", .string "Hello")])])))
      ∧ Get id (LoadMultipleLanguageJSON id (Localization.initial String)
        (.object [("", .object [("de", .string "x")]),
          ("hello", .object [("", .string "y"), ("fr", .string "Bonjour"),
            ("en", .string "Hello")])])) "hello" = "Bonjour" :=
  ⟨by decide,
    (first_load_sets_current id (Localization.initial String)
      (.multiple (.object [("", .object [("de", .string "x")]),
        ("hello", .object [("", .string "y"), ("fr", .string "Bonjour"),
          ("en", .string "Hello")])]))
      rfl rfl (by decide) (by decide)).2.2.2.1,
    by decide⟩

end Claims

end Urho3D
